import Mathlib

/-!
Verification of the batch file processor of `SEArch-tool.py`
(the "Interval File Copy/Archiving Utility").

This file is a shallow embedding of the script's core logic:

* the collection/grouping pass of `process_files` (lines 324-369),
* the per-group materialization pass (lines 371-475), covering both the
  `copy` mode (per-file copy/move) and the `archive` mode (tar append with
  age-gated deletion),
* `remove_source_file` (lines 290-301), and
* the startup validation of `run_cli_mode` (lines 482-508).

Modelling conventions:

* Filesystem timestamps (`os.path.getmtime`, `datetime.now()`) are integer
  epoch seconds.  `datetime.fromtimestamp` is modelled by `fromTimestamp`
  via the standard civil-calendar conversion; naive-datetime comparison and
  `datetime - timedelta(days=n)` agree with arithmetic on epoch seconds
  (`timedelta(days=n)` is exactly `n * 86400` seconds).
* `os.sep` is `"/"` and paths are assumed already normalized, as the script
  normalizes every root with `os.path.normpath(os.path.abspath(...))`.
* Fallible library calls (`os.makedirs`, `shutil.copy2`, `os.remove`,
  `tarfile.open`, `tar.addfile`/`gettarinfo`, `os.path.getmtime`) are given
  outcomes by a failure oracle `FailSpec`; a raised exception that the
  script does not catch surfaces as `Except.error`.
* Exception message texts inside log rows are abstracted away (the script
  interpolates `str(e)`); the fixed parts of every status string are kept
  verbatim.  The constant first log column (the run timestamp string) is
  omitted from `LogEntry`.
* The state a run touches is captured in `RunOut`: the tar archives
  (path to member-name list, in member order), the list of target paths
  written by `shutil.copy2`, the list of source paths removed by
  `os.remove`, and the log rows appended by `write_log_entry`.
-/

namespace SEArch

/-! ### Calendar conversion (`datetime.fromtimestamp`, `strftime`) -/

/-- A wall-clock instant, as Python's naive `datetime` components. -/
structure DateTime where
  year : Int
  month : Int
  day : Int
  hour : Int
  minute : Int
  second : Int
deriving DecidableEq, Repr

/-- Civil calendar date from a day count relative to 1970-01-01
(standard Gregorian conversion, floor-division variant). -/
def civilFromDays (z0 : Int) : Int × Int × Int :=
  let z := z0 + 719468
  let era := z.fdiv 146097
  let doe := z - era * 146097
  let yoe := (doe - doe.fdiv 1460 + doe.fdiv 36524 - doe.fdiv 146096).fdiv 365
  let y := yoe + era * 400
  let doy := doe - (365 * yoe + yoe.fdiv 4 - yoe.fdiv 100)
  let mp := (5 * doy + 2).fdiv 153
  let d := doy - (153 * mp + 2).fdiv 5 + 1
  let m := mp + (if mp < 10 then 3 else -9)
  (y + (if m ≤ 2 then 1 else 0), m, d)

/-- Model of `datetime.fromtimestamp` on integer epoch seconds. -/
def fromTimestamp (ts : Int) : DateTime :=
  let days := ts.fdiv 86400
  let secs := ts - days * 86400
  let c := civilFromDays days
  ⟨c.1, c.2.1, c.2.2, secs.fdiv 3600, (secs.fmod 3600).fdiv 60, secs.fmod 60⟩

/-- Zero-pad to two digits (`%m`, `%d`, `%H`). -/
def pad2 (n : Int) : String :=
  if n < 10 then "0" ++ toString n else toString n

/-- Zero-pad to four digits (`%Y`; years of interest are ≥ 1970). -/
def pad4 (n : Int) : String :=
  if n < 10 then "000" ++ toString n
  else if n < 100 then "00" ++ toString n
  else if n < 1000 then "0" ++ toString n
  else toString n

/-- Format `COPY_TIME_SUBDIR_FORMAT` (line 103): year/month/day/hour. -/
def copyTimeSegment (dt : DateTime) : String :=
  pad4 dt.year ++ "/" ++ pad2 dt.month ++ "/" ++ pad2 dt.day ++ "/" ++ pad2 dt.hour

/-- Format `ARCHIVE_TIME_SUBDIR_FORMAT` (line 104): year/month. -/
def archiveTimeSegment (dt : DateTime) : String :=
  pad4 dt.year ++ "/" ++ pad2 dt.month

/-- Day string of line 361 (strftime on year-month-day), the archive base name. -/
def archiveBaseName (dt : DateTime) : String :=
  pad4 dt.year ++ pad2 dt.month ++ pad2 dt.day

/-! ### Pattern matching (`fnmatch.fnmatch`, POSIX case-sensitive)

Character classes (`[...]`) are not modelled; `*`, `?` and literal
characters are, which covers every pattern the configuration layer
produces (`*.ext;...`). -/

/-- Glob matching on character lists, fuelled so that the recursion is
structural (every call strictly shrinks `ps.length + cs.length`, so the
fuel `ps.length + cs.length + 1` used by `globMatchL` never runs out). -/
def globMatchAux : Nat → List Char → List Char → Bool
  | 0, _, _ => false
  | _ + 1, [], [] => true
  | _ + 1, [], _ :: _ => false
  | fuel + 1, p :: ps, [] => p == '*' && globMatchAux fuel ps []
  | fuel + 1, p :: ps, c :: cs =>
      if p == '*' then
        globMatchAux fuel ps (c :: cs) || globMatchAux fuel (p :: ps) cs
      else (p == '?' || p == c) && globMatchAux fuel ps cs

/-- Glob matching of a pattern against a file name, on character lists. -/
def globMatchL (ps cs : List Char) : Bool :=
  globMatchAux (ps.length + cs.length + 1) ps cs

/-- Whether any active pattern matches the file name (line 349). -/
def matchesAny (patterns : List String) (name : String) : Bool :=
  patterns.any (fun p => globMatchL p.data name.data)

/-! ### Data model -/

/-- The `mode` configuration value: copy or archive. -/
inductive Mode | copy | archive
deriving DecidableEq, Repr

/-- The `action` configuration value: copy or move. -/
inductive Action | copy | move
deriving DecidableEq, Repr

/-- One file yielded by the `os.walk` of a source root: the walk-relative
directory (`rel_sub_path`, `"."` for the root itself), the base name, and
the modification time in epoch seconds. -/
structure SrcFile where
  relSubPath : String
  name : String
  mtime : Int
deriving DecidableEq, Repr

/-- One configured source root: its normalized absolute path, whether
`os.path.isdir` holds at run time, and its `os.walk` enumeration. -/
structure SourceDir where
  path : String
  present : Bool
  files : List SrcFile
deriving DecidableEq, Repr

/-- The per-file tuple stored in `file_groups` (line 365):
`(source_path, filename, mod_dt, rel_sub_path, mod_timestamp)`, with
`mod_dt` and `mod_timestamp` collapsed into the one epoch value `modMtime`. -/
structure FRec where
  sourcePath : String
  fileName : String
  modMtime : Int
  relSubPath : String
deriving DecidableEq, Repr

/-- The grouping key (lines 358 and 362):
`(source_dir_norm, time_segment, rel_sub_path-or-archive_base_name)`. -/
structure GroupKey where
  sourceRoot : String
  timeBucket : String
  groupDisc : String
deriving DecidableEq, Repr

/-- The run configuration that reaches `process_files`, with `now` the
instant `datetime.now()` returns at run start (line 316). -/
structure Config where
  sourceDirs : List SourceDir
  targetDir : String
  patterns : List String
  mode : Mode
  action : Action
  deleteAgeDays : Int
  now : Int
deriving DecidableEq, Repr

/-- Failure oracle for the fallible library calls; a field returning
`true` means the call raises for that path. -/
structure FailSpec where
  mtimeFail : String → Bool
  mkdirFail : String → Bool
  copyFail : String → Bool
  removeFail : String → Bool
  tarOpenFail : String → Bool
  addFail : String → Bool

/-- The oracle under which every library call succeeds. -/
def noFail : FailSpec := ⟨fun _ => false, fun _ => false, fun _ => false,
  fun _ => false, fun _ => false, fun _ => false⟩

/-- One structured log row (columns 2-5 of `LOG_HEADER`; the first column
is the constant run timestamp). -/
structure LogEntry where
  src : String
  name : String
  target : String
  status : String
deriving DecidableEq, Repr

/-- Everything a run writes: tar archives (path to member names), copied
target paths, removed source paths, and the appended log rows. -/
structure RunOut where
  tars : List (String × List String)
  copied : List String
  deleted : List String
  log : List LogEntry
deriving DecidableEq, Repr

/-! ### Path helpers -/

/-- The path component after the last separator (`acc` is the component
read so far). -/
def lastComponent : List Char → List Char → List Char
  | [], acc => acc
  | c :: cs, acc =>
      if c == '/' then lastComponent cs [] else lastComponent cs (acc ++ [c])

/-- Model of `os.path.basename` on a normalized path. -/
def baseName (s : String) : String :=
  ⟨lastComponent s.data []⟩

/-- A file's path relative to its source root: `rel_sub_path/filename`,
or just `filename` when the file sits in the root itself.  This is both
the tar member name `os.path.relpath(source_path, source_dir_norm)`
(line 431) and the tail of `source_path` itself. -/
def relName (f : SrcFile) : String :=
  if f.relSubPath == "." then f.name else f.relSubPath ++ "/" ++ f.name

/-- The absolute source path a walked file gets at line 344. -/
def sourcePathOf (root : String) (f : SrcFile) : String :=
  root ++ "/" ++ relName f

/-- The `FRec` built for a discovered file (line 365). -/
def mkRec (root : String) (f : SrcFile) : FRec :=
  ⟨sourcePathOf root f, f.name, f.mtime, f.relSubPath⟩

/-- The archive member name of a stored record
(`os.path.relpath(source_path, start=source_dir_norm)`, line 431). -/
def arcnameOf (r : FRec) : String :=
  if r.relSubPath == "." then r.fileName else r.relSubPath ++ "/" ++ r.fileName

/-- The grouping key of a discovered file (lines 356-362). -/
def keyFor (cfg : Config) (root : String) (f : SrcFile) : GroupKey :=
  let dt := fromTimestamp f.mtime
  match cfg.mode with
  | .copy => ⟨root, copyTimeSegment dt, f.relSubPath⟩
  | .archive => ⟨root, archiveTimeSegment dt, archiveBaseName dt⟩

/-- Copy-mode target directory of a group (line 382):
`os.path.join(target_dir, source_name, time_segment, rel_sub_path)`. -/
def copyTargetDirOf (cfg : Config) (k : GroupKey) : String :=
  cfg.targetDir ++ "/" ++ baseName k.sourceRoot ++ "/" ++ k.timeBucket ++ "/" ++ k.groupDisc

/-- Archive-mode base directory of a group (line 415). -/
def archiveBaseDirOf (cfg : Config) (k : GroupKey) : String :=
  cfg.targetDir ++ "/" ++ baseName k.sourceRoot ++ "/" ++ k.timeBucket

/-- Archive-mode tar path of a group (lines 414-416):
`base_target_dir/{archive_base_name}.tar`. -/
def archivePathOf (cfg : Config) (k : GroupKey) : String :=
  archiveBaseDirOf cfg k ++ "/" ++ (k.groupDisc ++ ".tar")

/-! ### Collection and grouping pass (lines 324-369) -/

/-- The accumulator of the collection pass: the insertion-ordered
`file_groups` dict and the `files_to_process` set. -/
structure GroupAcc where
  groups : List (GroupKey × List FRec)
  seen : List String
deriving Repr

/-- Append of one record under a key of an insertion-ordered dict (line 365). -/
def insertGroup : List (GroupKey × List FRec) → GroupKey → FRec →
    List (GroupKey × List FRec)
  | [], k, r => [(k, [r])]
  | (k', rs) :: rest, k, r =>
      if k' = k then (k', rs ++ [r]) :: rest
      else (k', rs) :: insertGroup rest k r

/-- Whether a walked file passes the filters that guard grouping: the
pattern test (line 349) and a successful `os.path.getmtime` (line 353). -/
def eligibleF (cfg : Config) (fo : FailSpec) (root : String) (f : SrcFile) : Bool :=
  matchesAny cfg.patterns f.name && !(fo.mtimeFail (sourcePathOf root f))

/-- The body of the inner walk loop (lines 343-369): skip paths already
seen, skip pattern misses and `getmtime` failures (console warning only),
otherwise record the file under its group key. -/
def fileStep (cfg : Config) (fo : FailSpec) (root : String) (acc : GroupAcc)
    (f : SrcFile) : GroupAcc :=
  if sourcePathOf root f ∈ acc.seen then acc
  else if eligibleF cfg fo root f then
    ⟨insertGroup acc.groups (keyFor cfg root f) (mkRec root f),
      sourcePathOf root f :: acc.seen⟩
  else acc

/-- The walk over one root's files. -/
def collectFilesRec (cfg : Config) (fo : FailSpec) (root : String) :
    List SrcFile → GroupAcc → GroupAcc
  | [], acc => acc
  | f :: fs, acc => collectFilesRec cfg fo root fs (fileStep cfg fo root acc f)

/-- The loop over source roots (lines 330-369); a missing root is skipped
with only a console message (line 334). -/
def collectDirsRec (cfg : Config) (fo : FailSpec) :
    List SourceDir → GroupAcc → GroupAcc
  | [], acc => acc
  | d :: ds, acc =>
      collectDirsRec cfg fo ds
        (if d.present then collectFilesRec cfg fo d.path d.files acc else acc)

/-- The grouped files of one run. -/
def collectGroups (cfg : Config) (fo : FailSpec) : List (GroupKey × List FRec) :=
  (collectDirsRec cfg fo cfg.sourceDirs ⟨[], []⟩).groups

/-- All records across all groups, in group order. -/
def allRecs (gs : List (GroupKey × List FRec)) : List FRec :=
  gs.flatMap (·.2)

/-- The walk's eligible files of one root, in walk order, without the
`files_to_process` deduplication. -/
def eligList (cfg : Config) (fo : FailSpec) (root : String) : List SrcFile → List FRec
  | [] => []
  | f :: fs =>
      (if eligibleF cfg fo root f then [mkRec root f] else []) ++
        eligList cfg fo root fs

/-- All eligible files across the configured roots, in traversal order,
without deduplication (the "discovered files matching the active
patterns" of one run). -/
def allEligible (cfg : Config) (fo : FailSpec) : List SourceDir → List FRec
  | [] => []
  | d :: ds =>
      (if d.present then eligList cfg fo d.path d.files else []) ++
        allEligible cfg fo ds

/-- First record with a given source path, in traversal order. -/
def findByPath (es : List FRec) (p : String) : Option FRec :=
  match es with
  | [] => none
  | e :: rest => if e.sourcePath = p then some e else findByPath rest p

/-! ### Status strings (fixed parts, exception texts abstracted) -/

/-- Status text of line 392. -/
def copiedStatus : String := "SUCCESS (Copied)"

/-- Status text of line 447. -/
def archivedStatus : String := "SUCCESS (Archived)"

/-- Status text of line 435. -/
def skippedStatus : String := "SKIPPED (Already in archive)"

/-- Deletion-success suffix of line 294. -/
def movedSuffix : String := " (MOVED/DELETED)"

/-- Deletion-failure suffix of line 298, exception detail omitted. -/
def deleteErrSuffix : String := " (ERROR DELETING SOURCE)"

/-- Age-gate suffix of line 456. -/
def moveSkipSuffix (days : Int) : String :=
  " (Move SKIPPED, not older than " ++ toString days ++ " days)"

/-- Title-cased action name as interpolated in messages (lines 401, 406). -/
def actionTitle : Action → String
  | .copy => "Copy"
  | .move => "Move"

/-- Error status of line 406, exception detail omitted. -/
def copyFailStatus (a : Action) : String :=
  "ERROR (" ++ actionTitle a ++ " failed)"

/-- Error status of line 462, exception detail omitted. -/
def archiveErrStatus : String := "ERROR (Archiving failed)"

/-- Critical group-level status of line 471, exception detail omitted. -/
def criticalStatus : String := "CRITICAL ERROR (Archive Failed)"

/-! ### Tar state -/

/-- Member list of the tar at a path, if that tar exists. -/
def getTar : List (String × List String) → String → Option (List String)
  | [], _ => none
  | (q, ms) :: rest, p => if q = p then some ms else getTar rest p

/-- Replace (or create) the tar at a path. -/
def setTar : List (String × List String) → String → List String →
    List (String × List String)
  | [], p, ms => [(p, ms)]
  | (q, old) :: rest, p, ms =>
      if q = p then (p, ms) :: rest else (q, old) :: setTar rest p ms

/-- Member names of the tar at a path (`[]` when the tar does not exist). -/
def membersAt (t : List (String × List String)) (p : String) : List String :=
  (getTar t p).getD []

/-! ### Copy-mode group execution (lines 378-408) -/

/-- The body of the copy-mode per-file loop (lines 384-408), including the
`remove_source_file` call (lines 290-301, 394-396).  On a deletion
failure, `remove_source_file` writes the suffixed row itself (line 299)
and `process_files` writes the same row again unconditionally (line 398),
so that row appears twice. -/
def copyFileStep (cfg : Config) (fo : FailSpec) (finalTargetDir : String)
    (out : RunOut) (r : FRec) : RunOut :=
  let targetPath := finalTargetDir ++ "/" ++ r.fileName
  let base : LogEntry := ⟨r.sourcePath, r.fileName, targetPath, ""⟩
  if fo.mkdirFail finalTargetDir then
    { out with log := out.log ++ [{ base with status := copyFailStatus cfg.action }] }
  else if fo.copyFail r.sourcePath then
    { out with log := out.log ++ [{ base with status := copyFailStatus cfg.action }] }
  else
    let out1 := { out with copied := out.copied ++ [targetPath] }
    match cfg.action with
    | .copy =>
        { out1 with log := out1.log ++ [{ base with status := copiedStatus }] }
    | .move =>
        if fo.removeFail r.sourcePath then
          let e := { base with status := copiedStatus ++ deleteErrSuffix }
          { out1 with log := out1.log ++ [e, e] }
        else
          let e := { base with status := copiedStatus ++ movedSuffix }
          { out1 with deleted := out1.deleted ++ [r.sourcePath],
                      log := out1.log ++ [e] }

/-- The copy-mode loop over one group's records. -/
def copyLoop (cfg : Config) (fo : FailSpec) (finalTargetDir : String) :
    List FRec → RunOut → RunOut
  | [], out => out
  | r :: rest, out =>
      copyLoop cfg fo finalTargetDir rest (copyFileStep cfg fo finalTargetDir out r)

/-- Copy-mode execution of one group (lines 379-408). -/
def processCopyGroup (cfg : Config) (fo : FailSpec) (k : GroupKey)
    (recs : List FRec) (out : RunOut) : RunOut :=
  copyLoop cfg fo (copyTargetDirOf cfg k) recs out

/-! ### Archive-mode group execution (lines 410-473) -/

/-- The body of the archive-mode per-file loop (lines 430-464).
`snapshot` is `files_in_archive`, enumerated once when the tar is opened
and never extended during the loop; `members` is the actual member list
of the open tar.  The deletion gate (line 453) is
`mod_dt < delete_age_threshold` with
`delete_age_threshold = now - timedelta(days=delete_age_days)` fixed at
run start (line 316). -/
def archiveFileStep (cfg : Config) (fo : FailSpec) (archPath : String)
    (snapshot : List String) (acc : List String × RunOut) (r : FRec) :
    List String × RunOut :=
  let members := acc.1
  let out := acc.2
  let a := arcnameOf r
  let base : LogEntry := ⟨r.sourcePath, r.fileName, archPath, ""⟩
  if a ∈ snapshot then
    (members, { out with log := out.log ++ [{ base with status := skippedStatus }] })
  else if fo.addFail r.sourcePath then
    (members, { out with log := out.log ++ [{ base with status := archiveErrStatus }] })
  else
    let members1 := members ++ [a]
    match cfg.action with
    | .copy =>
        (members1, { out with log := out.log ++ [{ base with status := archivedStatus }] })
    | .move =>
        if r.modMtime < cfg.now - cfg.deleteAgeDays * 86400 then
          if fo.removeFail r.sourcePath then
            let e := { base with status := archivedStatus ++ deleteErrSuffix }
            (members1, { out with log := out.log ++ [e, e] })
          else
            let e := { base with status := archivedStatus ++ movedSuffix }
            (members1, { out with deleted := out.deleted ++ [r.sourcePath],
                                  log := out.log ++ [e] })
        else
          let e := { base with status :=
            archivedStatus ++ moveSkipSuffix cfg.deleteAgeDays }
          (members1, { out with log := out.log ++ [e] })

/-- The archive-mode loop over one group's records. -/
def archiveLoop (cfg : Config) (fo : FailSpec) (archPath : String)
    (snapshot : List String) : List FRec → List String × RunOut →
    List String × RunOut
  | [], acc => acc
  | r :: rest, acc =>
      archiveLoop cfg fo archPath snapshot rest
        (archiveFileStep cfg fo archPath snapshot acc r)

/-- Archive-mode execution of one group (lines 411-473).
`os.makedirs(base_target_dir, exist_ok=True)` (line 418) sits outside the
`try` block, so its failure is an uncaught exception (`Except.error`).
`tarfile.open` failures are caught by the group-level handler (lines
469-473) and logged as one critical row.  The tar is opened in mode `"a"`
when it exists and `"w"` otherwise (line 420); in the model the snapshot
`files_in_archive` (line 428) equals `membersAt out.tars archPath` in
both cases, since a nonexistent tar has no members. -/
def processArchiveGroup (cfg : Config) (fo : FailSpec) (k : GroupKey)
    (recs : List FRec) (out : RunOut) : Except String RunOut :=
  let baseDir := archiveBaseDirOf cfg k
  let archPath := archivePathOf cfg k
  if fo.mkdirFail baseDir then
    Except.error ("makedirs failed: " ++ baseDir)
  else if fo.tarOpenFail archPath then
    Except.ok { out with log := out.log ++
      [⟨k.sourceRoot, k.groupDisc ++ ".tar", archPath, criticalStatus⟩] }
  else
    let ms0 := membersAt out.tars archPath
    let res := archiveLoop cfg fo archPath ms0 recs (ms0, out)
    Except.ok { res.2 with tars := setTar res.2.tars archPath res.1 }

/-! ### The whole run (`process_files`, lines 303-475) -/

/-- Dispatch on the mode for one group (lines 379 and 411). -/
def processGroup (cfg : Config) (fo : FailSpec) (k : GroupKey)
    (recs : List FRec) (out : RunOut) : Except String RunOut :=
  match cfg.mode with
  | .copy => Except.ok (processCopyGroup cfg fo k recs out)
  | .archive => processArchiveGroup cfg fo k recs out

/-- The loop over groups (line 374). -/
def processGroups (cfg : Config) (fo : FailSpec) :
    List (GroupKey × List FRec) → RunOut → Except String RunOut
  | [], out => Except.ok out
  | (k, recs) :: rest, out =>
      match processGroup cfg fo k recs out with
      | Except.error e => Except.error e
      | Except.ok out1 => processGroups cfg fo rest out1

/-- The whole run, `process_files`: an empty source list returns with only a console
warning (lines 318-320); otherwise collect, group, then materialize each
group.  `tars0` is the tar state left by previous runs. -/
def process_files (cfg : Config) (fo : FailSpec)
    (tars0 : List (String × List String)) : Except String RunOut :=
  if cfg.sourceDirs.isEmpty then
    Except.ok ⟨tars0, [], [], []⟩
  else
    processGroups cfg fo (collectGroups cfg fo) ⟨tars0, [], [], []⟩

/-- Result projection for stating facts about a completed run. -/
def outOf (e : Except String RunOut) : RunOut :=
  match e with
  | Except.ok r => r
  | Except.error _ => ⟨[], [], [], []⟩

/-- Whether a run completed without an uncaught exception. -/
def runOk (e : Except String RunOut) : Bool :=
  match e with
  | Except.ok _ => true
  | Except.error _ => false

/-- The uncaught exception of a run, if any. -/
def runErr (e : Except String RunOut) : Option String :=
  match e with
  | Except.ok _ => none
  | Except.error s => some s

/-! ### CLI startup validation (`run_cli_mode`, lines 482-508) -/

/-- Constant `MIN_INTERVAL_MINUTES` (line 87). -/
def MIN_INTERVAL_MINUTES : Rat := 1 / 2

/-- Constant `DEFAULT_INTERVAL_MINUTES` (line 88). -/
def DEFAULT_INTERVAL_MINUTES : Rat := 5

/-- Constant `MAX_INTERVAL_MINUTES` (line 89). -/
def MAX_INTERVAL_MINUTES : Rat := 60

/-- Constant `MIN_DELETE_AGE_DAYS` (line 92). -/
def MIN_DELETE_AGE_DAYS : Int := 30

/-- Constant `DEFAULT_DELETE_AGE_DAYS` (line 93). -/
def DEFAULT_DELETE_AGE_DAYS : Int := 30

/-- Outcome of CLI startup: `sys.exit(1)` (line 508) or the scheduled job
starting with the given interval and delete age. -/
inductive CliStart
  | fatal
  | run (interval : Rat) (deleteAge : Int)
deriving DecidableEq, Repr

/-- The validation in `run_cli_mode` (lines 492-508): an out-of-range
interval or a too-low delete age raises `ValueError`, which the handler
at line 501 catches, resetting BOTH values to their defaults; startup
then aborts only when `source_dirs`, `target_dir` or `interval > 0` is
falsy. -/
def run_cli_validate (sourceDirsStr targetDir : String) (interval : Rat)
    (deleteAge : Int) : CliStart :=
  let v : Rat × Int :=
    if MIN_INTERVAL_MINUTES ≤ interval ∧ interval ≤ MAX_INTERVAL_MINUTES then
      if deleteAge < MIN_DELETE_AGE_DAYS then
        (DEFAULT_INTERVAL_MINUTES, DEFAULT_DELETE_AGE_DAYS)
      else (interval, deleteAge)
    else (DEFAULT_INTERVAL_MINUTES, DEFAULT_DELETE_AGE_DAYS)
  if sourceDirsStr = "" ∨ targetDir = "" ∨ ¬ (0 < v.1) then CliStart.fatal
  else CliStart.run v.1 v.2

/-! ### Lemmas about the tar state -/

lemma getTar_setTar_eq (t : List (String × List String)) (p : String)
    (ms : List String) : getTar (setTar t p ms) p = some ms := by
  induction t with
  | nil => simp [setTar, getTar]
  | cons e rest ih =>
      by_cases h : e.1 = p
      · simp [setTar, h, getTar]
      · simp [setTar, h, getTar, ih]

lemma getTar_setTar_ne (t : List (String × List String)) (p q : String)
    (ms : List String) (h : q ≠ p) : getTar (setTar t p ms) q = getTar t q := by
  induction t with
  | nil => simp [setTar, getTar, Ne.symm h]
  | cons e rest ih =>
      obtain ⟨w, old⟩ := e
      by_cases he : w = p
      · simp [setTar, he, getTar, Ne.symm h]
      · simp [setTar, he, getTar, ih]

lemma setTar_self (t : List (String × List String)) (p : String)
    (ms : List String) (h : getTar t p = some ms) : setTar t p ms = t := by
  induction t with
  | nil => simp [getTar] at h
  | cons e rest ih =>
      obtain ⟨w, old⟩ := e
      by_cases he : w = p
      · subst he
        simp [getTar] at h
        simp [setTar, h]
      · simp [getTar, he] at h
        simp [setTar, he, ih h]

/-! ### Per-file step lemmas -/

lemma copyFileStep_deleted_move (cfg : Config) (fo : FailSpec)
    (finalDir : String) (out : RunOut) (r : FRec)
    (hact : cfg.action = .move)
    (hmk : fo.mkdirFail finalDir = false)
    (hcp : fo.copyFail r.sourcePath = false)
    (hrm : fo.removeFail r.sourcePath = false) :
    (copyFileStep cfg fo finalDir out r).deleted = out.deleted ++ [r.sourcePath]
    ∧ (copyFileStep cfg fo finalDir out r).copied =
        out.copied ++ [finalDir ++ "/" ++ r.fileName] := by
  simp [copyFileStep, hmk, hcp, hact, hrm]

/-! ### Claims C1 and C3: the deletion policy -/

/-- Fixture for C1: one source file whose age is exactly the threshold
(30 days, to the second), processed in archive mode with `action=move`. -/
def c1src : SourceDir := ⟨"/data/src", true, [⟨".", "old.log", 1700000000 - 30 * 86400⟩]⟩

/-- Fixture for C1: archive+move configuration with threshold 30 days. -/
def c1cfg : Config := ⟨[c1src], "/data/tgt", ["*.log"], .archive, .move, 30, 1700000000⟩

/-- Claim C1 (counterexample): in archive+move mode, a file with
`now - modifiedAt` exactly equal to the threshold (so `≥` holds) is
archived but NOT deleted — the code's gate (line 453) is the strict
`mod_dt < now - timedelta(days)`, not `≥`. -/
theorem c1_counterexample :
    ((1700000000 : Int) - (1700000000 - 30 * 86400) ≥ 30 * 86400)
    ∧ (outOf (process_files c1cfg noFail [])).log =
        [⟨"/data/src/old.log", "old.log", "/data/tgt/src/2023/10/20231015.tar",
          archivedStatus ++ moveSkipSuffix 30⟩]
    ∧ (outOf (process_files c1cfg noFail [])).deleted = [] := by decide

/-- Claim C1 (amended): in archive mode with `action=move`, a file whose
archive add succeeds is deleted from its source if and only if
`now - modifiedAt` is STRICTLY greater than the threshold
(`modifiedAt < now - thresholdDays·86400`, threshold fixed at run
start); a file not old enough is still archived, with the
`Move SKIPPED` note appended to its log status. -/
theorem c1_age_gate_strict (cfg : Config) (fo : FailSpec) (archPath : String)
    (snapshot members : List String) (out : RunOut) (r : FRec)
    (hact : cfg.action = .move)
    (hnew : arcnameOf r ∉ snapshot)
    (hadd : fo.addFail r.sourcePath = false)
    (hrm : fo.removeFail r.sourcePath = false) :
    ((archiveFileStep cfg fo archPath snapshot (members, out) r).1 =
        members ++ [arcnameOf r])
    ∧ ((archiveFileStep cfg fo archPath snapshot (members, out) r).2.deleted =
          out.deleted ++ [r.sourcePath] ↔
        r.modMtime < cfg.now - cfg.deleteAgeDays * 86400)
    ∧ (¬ r.modMtime < cfg.now - cfg.deleteAgeDays * 86400 →
        (archiveFileStep cfg fo archPath snapshot (members, out) r).2.deleted =
            out.deleted
        ∧ (archiveFileStep cfg fo archPath snapshot (members, out) r).2.log =
            out.log ++ [⟨r.sourcePath, r.fileName, archPath,
              archivedStatus ++ moveSkipSuffix cfg.deleteAgeDays⟩]) := by
  by_cases hage : r.modMtime < cfg.now - cfg.deleteAgeDays * 86400 <;>
    simp [archiveFileStep, hnew, hadd, hact, hrm, hage]

/-- Witness for `c1_age_gate_strict` at a concrete input (a 40-day-old
file is deleted; the hypotheses are discharged concretely). -/
theorem c1_age_gate_strict_witness :
    ((archiveFileStep c1cfg noFail "/data/tgt/src/2023/10/20231006.tar" []
        ([], ⟨[], [], [], []⟩) ⟨"/data/src/o.log", "o.log", 1700000000 - 40 * 86400, "."⟩).2.deleted =
      [] ++ ["/data/src/o.log"] ↔
      (1700000000 : Int) - 40 * 86400 < (1700000000 : Int) - 30 * 86400) :=
  (c1_age_gate_strict c1cfg noFail "/data/tgt/src/2023/10/20231006.tar" [] []
    ⟨[], [], [], []⟩ ⟨"/data/src/o.log", "o.log", 1700000000 - 40 * 86400, "."⟩
    rfl (by decide) rfl rfl).2.1

/-- Claim C3: in copy mode with `action=move`, a successfully copied file
is deleted from its source unconditionally — the modification time
`r.modMtime` is arbitrary and no age threshold appears on this path
(lines 394-396: "In copy mode + move, we delete regardless of age"). -/
theorem c3_copy_move_unconditional (cfg : Config) (fo : FailSpec)
    (finalDir : String) (out : RunOut) (r : FRec)
    (hact : cfg.action = .move)
    (hmk : fo.mkdirFail finalDir = false)
    (hcp : fo.copyFail r.sourcePath = false)
    (hrm : fo.removeFail r.sourcePath = false) :
    (copyFileStep cfg fo finalDir out r).deleted = out.deleted ++ [r.sourcePath]
    ∧ (copyFileStep cfg fo finalDir out r).copied =
        out.copied ++ [finalDir ++ "/" ++ r.fileName] :=
  copyFileStep_deleted_move cfg fo finalDir out r hact hmk hcp hrm

/-- Witness for `c3_copy_move_unconditional`: a file modified only one
day ago (far younger than any threshold) is still deleted. -/
theorem c3_copy_move_unconditional_witness :
    (copyFileStep ⟨[], "/t", ["*"], .copy, .move, 30, 1700000000⟩ noFail "/t/d"
        ⟨[], [], [], []⟩ ⟨"/s/a.log", "a.log", 1700000000 - 86400, "."⟩).deleted =
      [] ++ ["/s/a.log"] :=
  (c3_copy_move_unconditional ⟨[], "/t", ["*"], .copy, .move, 30, 1700000000⟩
    noFail "/t/d" ⟨[], [], [], []⟩ ⟨"/s/a.log", "a.log", 1700000000 - 86400, "."⟩
    rfl rfl rfl rfl).1

/-! ### Claim C9: log rows per file -/

/-- Fixture for C9: one source file in copy+move mode. -/
def c9src : SourceDir := ⟨"/data/src", true, [⟨".", "a.log", 1700000000⟩]⟩

/-- Fixture for C9. -/
def c9cfg : Config := ⟨[c9src], "/data/tgt", ["*.log"], .copy, .move, 30, 1700000000⟩

/-- Fixture for C9: `os.remove` raises for every path. -/
def c9fo : FailSpec := { noFail with removeFail := fun _ => true }

/-- Claim C9 is violated by the code: when source deletion fails after a
successful copy, `remove_source_file` writes the suffixed entry itself
(line 299) and `process_files` writes the same entry again (line 398),
so the file gets TWO identical log rows in one run, not one. -/
theorem c9_double_log_on_delete_failure :
    (outOf (process_files c9cfg c9fo [])).log =
      [⟨"/data/src/a.log", "a.log", "/data/tgt/src/2023/11/14/22/./a.log",
          copiedStatus ++ deleteErrSuffix⟩,
        ⟨"/data/src/a.log", "a.log", "/data/tgt/src/2023/11/14/22/./a.log",
          copiedStatus ++ deleteErrSuffix⟩]
    ∧ ((outOf (process_files c9cfg c9fo [])).log.countP
        (fun e => e.src == "/data/src/a.log")) = 2 := by decide

/-! ### Claim C8: CLI startup validation -/

/-- Claim C8 (counterexample): an interval of 100 minutes (outside the
0.5-60 bound) together with a valid delete age 45 is NOT fatal — the
`ValueError` is caught at line 501 and both values are reset to their
defaults (5 minutes, 30 days), and the run begins. -/
theorem c8_counterexample :
    ¬ (MIN_INTERVAL_MINUTES ≤ (100 : Rat) ∧ (100 : Rat) ≤ MAX_INTERVAL_MINUTES)
    ∧ run_cli_validate "/data/src" "/data/tgt" 100 45 = CliStart.run 5 30
    ∧ run_cli_validate "/data/src" "/data/tgt" 5 10 = CliStart.run 5 30 := by
  have hout : ¬ (MIN_INTERVAL_MINUTES ≤ (100 : Rat) ∧ (100 : Rat) ≤ MAX_INTERVAL_MINUTES) := by
    norm_num [MIN_INTERVAL_MINUTES, MAX_INTERVAL_MINUTES]
  have hin : MIN_INTERVAL_MINUTES ≤ (5 : Rat) ∧ (5 : Rat) ≤ MAX_INTERVAL_MINUTES := by
    norm_num [MIN_INTERVAL_MINUTES, MAX_INTERVAL_MINUTES]
  refine ⟨hout, ?_, ?_⟩
  · simp only [run_cli_validate, if_neg hout]
    norm_num [DEFAULT_INTERVAL_MINUTES, DEFAULT_DELETE_AGE_DAYS]
    intro h
    rcases h with h | h <;> exact absurd h (by decide)
  · simp only [run_cli_validate, if_pos hin]
    norm_num [MIN_DELETE_AGE_DAYS, DEFAULT_INTERVAL_MINUTES, DEFAULT_DELETE_AGE_DAYS]
    intro h
    rcases h with h | h <;> exact absurd h (by decide)

/-- Claim C8 (amended): invalid interval bounds or a too-low delete age
are NOT fatal at startup — both values are replaced by the defaults
(5 minutes, 30 days) and the run begins; startup is fatal exactly when
the configured source-dirs string or target dir is empty. -/
theorem c8_startup_validation (s t : String) (i : Rat) (a : Int) :
    (run_cli_validate s t i a = CliStart.fatal ↔ (s = "" ∨ t = ""))
    ∧ (¬ (MIN_INTERVAL_MINUTES ≤ i ∧ i ≤ MAX_INTERVAL_MINUTES) → s ≠ "" → t ≠ "" →
        run_cli_validate s t i a =
          CliStart.run DEFAULT_INTERVAL_MINUTES DEFAULT_DELETE_AGE_DAYS)
    ∧ ((MIN_INTERVAL_MINUTES ≤ i ∧ i ≤ MAX_INTERVAL_MINUTES) →
        a < MIN_DELETE_AGE_DAYS → s ≠ "" → t ≠ "" →
        run_cli_validate s t i a =
          CliStart.run DEFAULT_INTERVAL_MINUTES DEFAULT_DELETE_AGE_DAYS) := by
  have hpos : 0 < DEFAULT_INTERVAL_MINUTES := by norm_num [DEFAULT_INTERVAL_MINUTES]
  unfold run_cli_validate
  by_cases hin : MIN_INTERVAL_MINUTES ≤ i ∧ i ≤ MAX_INTERVAL_MINUTES
  · have hipos : 0 < i := lt_of_lt_of_le (by norm_num [MIN_INTERVAL_MINUTES]) hin.1
    by_cases hage : a < MIN_DELETE_AGE_DAYS
    · simp only [if_pos hin, if_pos hage]
      constructor
      · constructor
        · intro h
          by_contra hc
          push_neg at hc
          simp [hc.1, hc.2, hpos] at h
        · intro h
          rcases h with h | h <;> simp [h]
      · exact ⟨fun hni => absurd hin hni, fun _ _ hs ht => by simp [hs, ht, hpos]⟩
    · simp only [if_pos hin, if_neg hage]
      constructor
      · constructor
        · intro h
          by_contra hc
          push_neg at hc
          simp [hc.1, hc.2, hipos] at h
        · intro h
          rcases h with h | h <;> simp [h]
      · exact ⟨fun hni => absurd hin hni, fun _ hage2 => absurd hage2 hage⟩
  · simp only [if_neg hin]
    constructor
    · constructor
      · intro h
        by_contra hc
        push_neg at hc
        simp [hc.1, hc.2, hpos] at h
      · intro h
        rcases h with h | h <;> simp [h]
    · exact ⟨fun _ hs ht => by simp [hs, ht, hpos], fun hin2 => absurd hin2 hin⟩

/-- Witness for `c8_startup_validation`: the non-fatal-default branch at
a concrete out-of-range interval. -/
theorem c8_startup_validation_witness :
    run_cli_validate "/data/src" "/data/tgt" 100 45 =
      CliStart.run DEFAULT_INTERVAL_MINUTES DEFAULT_DELETE_AGE_DAYS :=
  (c8_startup_validation "/data/src" "/data/tgt" 100 45).2.1
    (by norm_num [MIN_INTERVAL_MINUTES, MAX_INTERVAL_MINUTES])
    (by decide) (by decide)

/-! ### Claim C7: exception confinement of a run -/

lemma processGroup_ok_of_mkdir_ok (cfg : Config) (fo : FailSpec) (k : GroupKey)
    (recs : List FRec) (out : RunOut)
    (h : fo.mkdirFail (archiveBaseDirOf cfg k) = false) :
    ∃ out1, processGroup cfg fo k recs out = Except.ok out1 := by
  cases hm : cfg.mode with
  | copy => exact ⟨processCopyGroup cfg fo k recs out, by simp [processGroup, hm]⟩
  | archive =>
      by_cases ht : fo.tarOpenFail (archivePathOf cfg k) = true
      · simp [processGroup, hm, processArchiveGroup, h, ht]
      · simp only [Bool.not_eq_true] at ht
        simp [processGroup, hm, processArchiveGroup, h, ht]

lemma processGroups_ok_of_mkdir_ok (cfg : Config) (fo : FailSpec)
    (h : ∀ d, fo.mkdirFail d = false) :
    ∀ (gs : List (GroupKey × List FRec)) (out : RunOut),
      ∃ out1, processGroups cfg fo gs out = Except.ok out1 := by
  intro gs
  induction gs with
  | nil => exact fun out => ⟨out, rfl⟩
  | cons g rest ih =>
      intro out
      obtain ⟨o1, ho1⟩ := processGroup_ok_of_mkdir_ok cfg fo g.1 g.2 out
        (h (archiveBaseDirOf cfg g.1))
      obtain ⟨o2, ho2⟩ := ih o1
      exact ⟨o2, by simp [processGroups, ho1, ho2]⟩

lemma processGroups_ok_of_copy (cfg : Config) (fo : FailSpec)
    (hm : cfg.mode = .copy) :
    ∀ (gs : List (GroupKey × List FRec)) (out : RunOut),
      ∃ out1, processGroups cfg fo gs out = Except.ok out1 := by
  intro gs
  induction gs with
  | nil => exact fun out => ⟨out, rfl⟩
  | cons g rest ih =>
      intro out
      obtain ⟨o2, ho2⟩ := ih (processCopyGroup cfg fo g.1 g.2 out)
      exact ⟨o2, by simp [processGroups, processGroup, hm, ho2]⟩

/-- Fixture for C7: archive-mode run over one file. -/
def c7src : SourceDir := ⟨"/data/src", true, [⟨".", "a.log", 1700000000⟩]⟩

/-- Fixture for C7. -/
def c7cfg : Config := ⟨[c7src], "/data/tgt", ["*.log"], .archive, .copy, 30, 1700000000⟩

/-- Fixture for C7: copy-mode variant of the same run. -/
def c7ccfg : Config := ⟨[c7src], "/data/tgt", ["*.log"], .copy, .copy, 30, 1700000000⟩

/-- Fixture for C7: `os.makedirs` raises for every path. -/
def c7fo : FailSpec := { noFail with mkdirFail := fun _ => true }

/-- Claim C7 (counterexample): an exception CAN escape the run —
`os.makedirs(base_target_dir, exist_ok=True)` (line 418) sits outside
the archive-mode `try` block, so its failure propagates out of
`process_files` instead of being logged. -/
theorem c7_counterexample :
    runOk (process_files c7cfg c7fo []) = false
    ∧ runErr (process_files c7cfg c7fo []) =
        some "makedirs failed: /data/tgt/src/2023/11" := by decide

/-- Claim C7 (amended): every per-file failure (copy, tar add, source
removal, mtime read) and every `tarfile.open` failure is caught and the
run completes; the ONLY uncaught exception is a failure of the
archive-mode `os.makedirs` call (line 418).  In particular, if directory
creation never fails the run always returns control, whatever the other
failures; and a copy-mode run never raises at all. -/
theorem c7_no_escape_amended (cfg : Config) (fo : FailSpec)
    (tars0 : List (String × List String)) :
    ((∀ d, fo.mkdirFail d = false) → runOk (process_files cfg fo tars0) = true)
    ∧ (cfg.mode = .copy → runOk (process_files cfg fo tars0) = true) := by
  constructor
  · intro h
    unfold process_files
    by_cases he : cfg.sourceDirs.isEmpty
    · simp [he, runOk]
    · simp only [he, if_false, Bool.false_eq_true]
      obtain ⟨o, ho⟩ := processGroups_ok_of_mkdir_ok cfg fo h
        (collectGroups cfg fo) ⟨tars0, [], [], []⟩
      simp [ho, runOk]
  · intro hm
    unfold process_files
    by_cases he : cfg.sourceDirs.isEmpty
    · simp [he, runOk]
    · simp only [he, if_false, Bool.false_eq_true]
      obtain ⟨o, ho⟩ := processGroups_ok_of_copy cfg fo hm
        (collectGroups cfg fo) ⟨tars0, [], [], []⟩
      simp [ho, runOk]

/-- Witness for `c7_no_escape_amended`: with all other failure kinds
forced on, the run still completes in both modes. -/
theorem c7_no_escape_amended_witness :
    runOk (process_files c7cfg
      ⟨fun _ => false, fun _ => false, fun _ => true, fun _ => true,
        fun _ => true, fun _ => true⟩ []) = true
    ∧ runOk (process_files c7ccfg
      ⟨fun _ => false, fun _ => false, fun _ => true, fun _ => true,
        fun _ => true, fun _ => true⟩ []) = true :=
  ⟨(c7_no_escape_amended c7cfg
      ⟨fun _ => false, fun _ => false, fun _ => true, fun _ => true,
        fun _ => true, fun _ => true⟩ []).1 (fun _ => rfl),
   (c7_no_escape_amended c7ccfg
      ⟨fun _ => false, fun _ => false, fun _ => true, fun _ => true,
        fun _ => true, fun _ => true⟩ []).2 rfl⟩

/-! ### Claim C6: materialization locations -/

lemma copyFileStep_copied_cases (cfg : Config) (fo : FailSpec) (dir : String)
    (out : RunOut) (r : FRec) :
    (copyFileStep cfg fo dir out r).copied = out.copied ∨
    (copyFileStep cfg fo dir out r).copied = out.copied ++ [dir ++ "/" ++ r.fileName] := by
  cases hA : cfg.action <;> simp [copyFileStep, hA] <;> split_ifs <;> simp

lemma copyLoop_copied_mem (cfg : Config) (fo : FailSpec) (dir : String) :
    ∀ (recs : List FRec) (out : RunOut) (tp : String),
      tp ∈ (copyLoop cfg fo dir recs out).copied →
      tp ∈ out.copied ∨ ∃ r ∈ recs, tp = dir ++ "/" ++ r.fileName := by
  intro recs
  induction recs with
  | nil => intro out tp h; exact Or.inl h
  | cons r rest ih =>
      intro out tp h
      simp only [copyLoop] at h
      rcases ih _ tp h with hin | ⟨r', hr', he⟩
      · rcases copyFileStep_copied_cases cfg fo dir out r with hc | hc
        · rw [hc] at hin; exact Or.inl hin
        · rw [hc] at hin
          rcases List.mem_append.mp hin with h1 | h2
          · exact Or.inl h1
          · right
            exact ⟨r, by simp, by simpa using h2⟩
      · right
        exact ⟨r', by simp [hr'], he⟩

lemma archiveFileStep_fst_cases (cfg : Config) (fo : FailSpec) (p : String)
    (snap : List String) (acc : List String × RunOut) (r : FRec) :
    (archiveFileStep cfg fo p snap acc r).1 = acc.1 ∨
    (archiveFileStep cfg fo p snap acc r).1 = acc.1 ++ [arcnameOf r] := by
  cases hA : cfg.action <;> simp [archiveFileStep, hA] <;> split_ifs <;> simp

lemma archiveFileStep_tars (cfg : Config) (fo : FailSpec) (p : String)
    (snap : List String) (acc : List String × RunOut) (r : FRec) :
    (archiveFileStep cfg fo p snap acc r).2.tars = acc.2.tars := by
  cases hA : cfg.action <;> simp [archiveFileStep, hA] <;> split_ifs <;> simp

lemma archiveLoop_fst_append (cfg : Config) (fo : FailSpec) (p : String)
    (snap : List String) :
    ∀ (recs : List FRec) (acc : List String × RunOut),
      ∃ tail, (archiveLoop cfg fo p snap recs acc).1 = acc.1 ++ tail := by
  intro recs
  induction recs with
  | nil => exact fun acc => ⟨[], by simp [archiveLoop]⟩
  | cons r rest ih =>
      intro acc
      obtain ⟨tail, htail⟩ := ih (archiveFileStep cfg fo p snap acc r)
      simp only [archiveLoop]
      rcases archiveFileStep_fst_cases cfg fo p snap acc r with hc | hc
      · exact ⟨tail, by rw [htail, hc]⟩
      · exact ⟨[arcnameOf r] ++ tail, by rw [htail, hc, List.append_assoc]⟩

lemma archiveLoop_tars (cfg : Config) (fo : FailSpec) (p : String)
    (snap : List String) :
    ∀ (recs : List FRec) (acc : List String × RunOut),
      (archiveLoop cfg fo p snap recs acc).2.tars = acc.2.tars := by
  intro recs
  induction recs with
  | nil => intro acc; rfl
  | cons r rest ih =>
      intro acc
      simp only [archiveLoop]
      rw [ih, archiveFileStep_tars]

lemma processArchiveGroup_ok_elim (cfg : Config) (fo : FailSpec) (k : GroupKey)
    (recs : List FRec) (out out' : RunOut)
    (h : processArchiveGroup cfg fo k recs out = Except.ok out') :
    (fo.tarOpenFail (archivePathOf cfg k) = true ∧ out'.tars = out.tars) ∨
    (∃ tail, out'.tars =
        setTar out.tars (archivePathOf cfg k)
          (membersAt out.tars (archivePathOf cfg k) ++ tail)) := by
  unfold processArchiveGroup at h
  by_cases hmk : fo.mkdirFail (archiveBaseDirOf cfg k) = true
  · simp [hmk] at h
  · simp only [Bool.not_eq_true] at hmk
    by_cases ht : fo.tarOpenFail (archivePathOf cfg k) = true
    · simp only [hmk, Bool.false_eq_true, if_false, ht, if_true,
        Except.ok.injEq] at h
      exact Or.inl ⟨ht, by rw [← h]⟩
    · simp only [Bool.not_eq_true] at ht
      simp only [hmk, Bool.false_eq_true, if_false, ht, Except.ok.injEq] at h
      obtain ⟨tail, htail⟩ := archiveLoop_fst_append cfg fo (archivePathOf cfg k)
        (membersAt out.tars (archivePathOf cfg k)) recs
        (membersAt out.tars (archivePathOf cfg k), out)
      refine Or.inr ⟨tail, ?_⟩
      rw [← h]
      simp only []
      rw [htail, archiveLoop_tars]

/-- Claim C6: archive-mode materialization touches exactly the tar at
`targetRoot/sourceRootName/timeBucket/groupDiscriminator.tar` — every
other path is untouched, an existing tar at that path is only extended
(append mode), and after a group whose `tarfile.open` does not fail the
tar at that path exists; copy-mode materialization writes only to
`target/sourceRootName/timeBucket/groupDiscriminator/fileName`. -/
theorem c6_materialization_paths (cfg : Config) (fo : FailSpec) (k : GroupKey)
    (recs : List FRec) (out : RunOut) :
    (∀ tp, tp ∈ (processCopyGroup cfg fo k recs out).copied →
        tp ∈ out.copied ∨ ∃ r ∈ recs, tp = copyTargetDirOf cfg k ++ "/" ++ r.fileName)
    ∧ (∀ out', processArchiveGroup cfg fo k recs out = Except.ok out' →
        (∀ p, p ≠ archivePathOf cfg k → getTar out'.tars p = getTar out.tars p)
        ∧ (∀ ms, getTar out.tars (archivePathOf cfg k) = some ms →
            ∃ tail, getTar out'.tars (archivePathOf cfg k) = some (ms ++ tail))
        ∧ (fo.tarOpenFail (archivePathOf cfg k) = false →
            (getTar out'.tars (archivePathOf cfg k)).isSome = true)) := by
  constructor
  · exact fun tp h => copyLoop_copied_mem cfg fo (copyTargetDirOf cfg k) recs out tp h
  · intro out' h
    rcases processArchiveGroup_ok_elim cfg fo k recs out out' h with
      ⟨ht, heq⟩ | ⟨tail, heq⟩
    · refine ⟨fun p _ => by rw [heq], fun ms hms => ⟨[], ?_⟩, fun ht2 => ?_⟩
      · rw [heq, List.append_nil]; exact hms
      · rw [ht] at ht2; cases ht2
    · refine ⟨fun p hp => ?_, fun ms hms => ⟨tail, ?_⟩, fun _ => ?_⟩
      · rw [heq]; exact getTar_setTar_ne _ _ _ _ hp
      · rw [heq, getTar_setTar_eq]
        unfold membersAt
        rw [hms]
        rfl
      · rw [heq, getTar_setTar_eq]
        rfl

/-- Fixture for C6: the archive group and record of the `c7cfg` run. -/
def c6k : GroupKey := ⟨"/data/src", "2023/11", "20231114"⟩

/-- Fixture for C6. -/
def c6r : FRec := ⟨"/data/src/a.log", "a.log", 1700000000, "."⟩

/-- Fixture for C6: the copy-mode group key of the same file. -/
def c6kc : GroupKey := ⟨"/data/src", "2023/11/14/22", "."⟩

/-- Witness for `c6_materialization_paths` at a concrete archive group and
a concrete copied file. -/
theorem c6_materialization_paths_witness :
    (("/data/tgt/src/2023/11/14/22/./a.log" : String) ∈
        (⟨[], [], [], []⟩ : RunOut).copied ∨
      ∃ r ∈ [c6r], "/data/tgt/src/2023/11/14/22/./a.log" =
        copyTargetDirOf c7ccfg c6kc ++ "/" ++ r.fileName)
    ∧ (getTar (outOf (processArchiveGroup c7cfg noFail c6k [c6r]
        ⟨[], [], [], []⟩)).tars (archivePathOf c7cfg c6k)).isSome = true :=
  ⟨(c6_materialization_paths c7ccfg noFail c6kc [c6r] ⟨[], [], [], []⟩).1
      "/data/tgt/src/2023/11/14/22/./a.log" (by decide),
   ((c6_materialization_paths c7cfg noFail c6k [c6r] ⟨[], [], [], []⟩).2
      (outOf (processArchiveGroup c7cfg noFail c6k [c6r] ⟨[], [], [], []⟩))
      rfl).2.2 rfl⟩

/-! ### Invariants of the collection pass -/

/-- A per-record property holding throughout a group map. -/
def GroupsInv (Q : GroupKey → FRec → Prop) (gs : List (GroupKey × List FRec)) : Prop :=
  ∀ k recs, (k, recs) ∈ gs → ∀ r ∈ recs, Q k r

lemma groupsInv_insert (Q : GroupKey → FRec → Prop) :
    ∀ (gs : List (GroupKey × List FRec)) (k : GroupKey) (r : FRec),
      GroupsInv Q gs → Q k r → GroupsInv Q (insertGroup gs k r) := by
  intro gs
  induction gs with
  | nil =>
      intro k r _ hq k' recs' hmem r' hr'
      simp only [insertGroup, List.mem_singleton, Prod.mk.injEq] at hmem
      obtain ⟨hk, hrecs⟩ := hmem
      subst hk
      subst hrecs
      simp only [List.mem_singleton] at hr'
      subst hr'
      exact hq
  | cons e rest ih =>
      intro k r hg hq
      obtain ⟨k0, rs0⟩ := e
      have hgrest : GroupsInv Q rest :=
        fun k' recs' hm => hg k' recs' (List.mem_cons_of_mem _ hm)
      by_cases he : k0 = k
      · intro k' recs' hmem r' hr'
        simp only [insertGroup, if_pos he, List.mem_cons, Prod.mk.injEq] at hmem
        rcases hmem with ⟨hk, hrecs⟩ | hmem
        · rw [hrecs] at hr'
          rw [hk]
          rcases List.mem_append.mp hr' with h0 | h0
          · exact hg k0 rs0 (List.mem_cons_self _ _) r' h0
          · simp only [List.mem_singleton] at h0
            rw [h0, he]
            exact hq
        · exact hgrest k' recs' hmem r' hr'
      · intro k' recs' hmem r' hr'
        simp only [insertGroup, if_neg he, List.mem_cons, Prod.mk.injEq] at hmem
        rcases hmem with ⟨hk, hrecs⟩ | hmem
        · rw [hrecs] at hr'
          rw [hk]
          exact hg k0 rs0 (List.mem_cons_self _ _) r' hr'
        · exact ih k r hgrest hq k' recs' hmem r' hr'

lemma fileStep_groupsInv (Q : GroupKey → FRec → Prop) (cfg : Config)
    (fo : FailSpec) (root : String) (acc : GroupAcc) (f : SrcFile)
    (hg : GroupsInv Q acc.groups)
    (hq : Q (keyFor cfg root f) (mkRec root f)) :
    GroupsInv Q (fileStep cfg fo root acc f).groups := by
  unfold fileStep
  split_ifs with h1 h2
  · exact hg
  · exact groupsInv_insert Q acc.groups _ _ hg hq
  · exact hg

lemma collectFilesRec_groupsInv (Q : GroupKey → FRec → Prop) (cfg : Config)
    (fo : FailSpec) (root : String)
    (hq : ∀ f, Q (keyFor cfg root f) (mkRec root f)) :
    ∀ (fs : List SrcFile) (acc : GroupAcc), GroupsInv Q acc.groups →
      GroupsInv Q (collectFilesRec cfg fo root fs acc).groups := by
  intro fs
  induction fs with
  | nil => exact fun acc h => h
  | cons f fs ih =>
      intro acc h
      exact ih _ (fileStep_groupsInv Q cfg fo root acc f h (hq f))

lemma collectDirsRec_groupsInv (Q : GroupKey → FRec → Prop) (cfg : Config)
    (fo : FailSpec)
    (hq : ∀ root f, Q (keyFor cfg root f) (mkRec root f)) :
    ∀ (ds : List SourceDir) (acc : GroupAcc), GroupsInv Q acc.groups →
      GroupsInv Q (collectDirsRec cfg fo ds acc).groups := by
  intro ds
  induction ds with
  | nil => exact fun acc h => h
  | cons d ds ih =>
      intro acc h
      by_cases hp : d.present = true
      · simp only [collectDirsRec, hp, if_true]
        exact ih _ (collectFilesRec_groupsInv Q cfg fo d.path (hq d.path) d.files acc h)
      · simp only [Bool.not_eq_true] at hp
        simp only [collectDirsRec, hp, Bool.false_eq_true, if_false]
        exact ih _ h

/-- The relation between every stored record and its group key: the
record's path extends the key's root by its member name, and the other
key components are exactly the strings the code computes from the
record's fields (lines 356-365). -/
def recKeyOk (cfg : Config) (k : GroupKey) (r : FRec) : Prop :=
  r.sourcePath = k.sourceRoot ++ "/" ++ arcnameOf r
  ∧ (cfg.mode = .copy → k.timeBucket = copyTimeSegment (fromTimestamp r.modMtime)
      ∧ k.groupDisc = r.relSubPath)
  ∧ (cfg.mode = .archive → k.timeBucket = archiveTimeSegment (fromTimestamp r.modMtime)
      ∧ k.groupDisc = archiveBaseName (fromTimestamp r.modMtime))

lemma keyFor_recKeyOk (cfg : Config) (root : String) (f : SrcFile) :
    recKeyOk cfg (keyFor cfg root f) (mkRec root f) := by
  cases hm : cfg.mode <;>
    simp [recKeyOk, keyFor, hm, mkRec, arcnameOf, sourcePathOf, relName]

lemma collect_recKeyOk (cfg : Config) (fo : FailSpec) :
    GroupsInv (recKeyOk cfg) (collectGroups cfg fo) :=
  collectDirsRec_groupsInv (recKeyOk cfg) cfg fo
    (fun root f => keyFor_recKeyOk cfg root f) cfg.sourceDirs ⟨[], []⟩
    (fun _ _ h => by cases h)

/-! ### Claim C4: the group key of every discovered file -/

/-- Claim C4: every stored record's key has the mode-dependent shape —
copy mode buckets by `YYYY/MM/DD/HH` and discriminates by the relative
sub-path; archive mode buckets by `YYYY/MM` and discriminates by the
`YYYYMMDD` day string that becomes the archive base name. -/
theorem c4_group_key_shape (cfg : Config) (fo : FailSpec) :
    ∀ k recs, (k, recs) ∈ collectGroups cfg fo → ∀ r ∈ recs,
      (cfg.mode = .copy → k.timeBucket = copyTimeSegment (fromTimestamp r.modMtime)
        ∧ k.groupDisc = r.relSubPath)
      ∧ (cfg.mode = .archive → k.timeBucket = archiveTimeSegment (fromTimestamp r.modMtime)
        ∧ k.groupDisc = archiveBaseName (fromTimestamp r.modMtime)) :=
  fun k recs hmem r hr =>
    ⟨(collect_recKeyOk cfg fo k recs hmem r hr).2.1,
     (collect_recKeyOk cfg fo k recs hmem r hr).2.2⟩

/-- Witness for `c4_group_key_shape` at the concrete archive-mode run of
`c7cfg` (month bucket `2023/11`, day discriminator `20231114`). -/
theorem c4_group_key_shape_witness :
    c6k.timeBucket = archiveTimeSegment (fromTimestamp c6r.modMtime)
    ∧ c6k.groupDisc = archiveBaseName (fromTimestamp c6r.modMtime) :=
  (c4_group_key_shape c7cfg noFail c6k [c6r] (by decide) c6r (by decide)).2 rfl

/-! ### Claim C5: the grouping invariant -/

lemma allRecs_cons (k : GroupKey) (rs : List FRec)
    (rest : List (GroupKey × List FRec)) :
    allRecs ((k, rs) :: rest) = rs ++ allRecs rest := by
  simp [allRecs]

lemma allRecs_insertGroup (gs : List (GroupKey × List FRec)) (k : GroupKey)
    (r : FRec) : (allRecs (insertGroup gs k r)).Perm (r :: allRecs gs) := by
  induction gs with
  | nil => simp [insertGroup, allRecs]
  | cons e rest ih =>
      obtain ⟨k0, rs0⟩ := e
      by_cases he : k0 = k
      · simp only [insertGroup, if_pos he, allRecs_cons]
        rw [List.append_assoc]
        exact List.perm_middle
      · simp only [insertGroup, if_neg he, allRecs_cons]
        exact (List.Perm.append_left rs0 ih).trans List.perm_middle

lemma findByPath_append_some (E1 E2 : List FRec) (p : String) (r : FRec)
    (h : findByPath E1 p = some r) : findByPath (E1 ++ E2) p = some r := by
  induction E1 with
  | nil => simp [findByPath] at h
  | cons e rest ih =>
      by_cases he : e.sourcePath = p
      · simp only [findByPath, if_pos he] at h
        simp only [List.cons_append, findByPath, if_pos he]
        exact h
      · simp only [findByPath, if_neg he] at h
        simp only [List.cons_append, findByPath, if_neg he]
        exact ih h

lemma findByPath_append_none (E1 E2 : List FRec) (p : String)
    (h : findByPath E1 p = none) :
    findByPath (E1 ++ E2) p = findByPath E2 p := by
  induction E1 with
  | nil => rfl
  | cons e rest ih =>
      by_cases he : e.sourcePath = p
      · simp [findByPath, he] at h
      · simp only [findByPath, if_neg he] at h
        simp only [List.cons_append, findByPath, if_neg he]
        exact ih h

lemma findByPath_eq_none (E : List FRec) (p : String)
    (h : ∀ e ∈ E, e.sourcePath ≠ p) : findByPath E p = none := by
  induction E with
  | nil => rfl
  | cons e rest ih =>
      simp only [findByPath, if_neg (h e (List.mem_cons_self _ _))]
      exact ih (fun e2 he2 => h e2 (List.mem_cons_of_mem _ he2))

lemma mem_eligList (cfg : Config) (fo : FailSpec) (root : String) (f : SrcFile) :
    ∀ fs, f ∈ fs → eligibleF cfg fo root f = true →
      mkRec root f ∈ eligList cfg fo root fs := by
  intro fs
  induction fs with
  | nil => intro h; simp at h
  | cons f0 fs ih =>
      intro hf hel
      rcases List.mem_cons.mp hf with h0 | h0
      · rw [← h0]
        simp only [eligList, hel, if_true]
        exact List.mem_append_left _ (List.mem_cons_self _ _)
      · simp only [eligList]
        exact List.mem_append_right _ (ih h0 hel)

lemma mem_allEligible (cfg : Config) (fo : FailSpec) (d : SourceDir) (f : SrcFile) :
    ∀ ds, d ∈ ds → d.present = true → f ∈ d.files →
      eligibleF cfg fo d.path f = true →
      mkRec d.path f ∈ allEligible cfg fo ds := by
  intro ds
  induction ds with
  | nil => intro h; simp at h
  | cons d0 ds ih =>
      intro hd hp hf hel
      rcases List.mem_cons.mp hd with h0 | h0
      · rw [← h0]
        simp only [allEligible, hp, if_true]
        exact List.mem_append_left _ (mem_eligList cfg fo d.path f d.files hf hel)
      · simp only [allEligible]
        exact List.mem_append_right _ (ih h0 hp hf hel)

/-- Invariant carried through the collection pass: `E` is the list of
eligible files traversed so far (without deduplication); the stored
records have pairwise distinct source paths, the `seen` set equals the
set of stored paths, every stored record is the FIRST traversed eligible
file with its path, and every traversed eligible file's path is stored. -/
def CollectInv (E : List FRec) (acc : GroupAcc) : Prop :=
  ((allRecs acc.groups).map FRec.sourcePath).Nodup
  ∧ (∀ p, p ∈ acc.seen ↔ p ∈ (allRecs acc.groups).map FRec.sourcePath)
  ∧ (∀ r ∈ allRecs acc.groups, findByPath E r.sourcePath = some r)
  ∧ (∀ e ∈ E, e.sourcePath ∈ acc.seen)

lemma collectInv_init : CollectInv [] ⟨[], []⟩ := by
  refine ⟨by simp [allRecs], fun p => by simp [allRecs], ?_, ?_⟩
  · intro r hr
    simp [allRecs] at hr
  · intro e he
    simp at he

lemma fileStep_collectInv (cfg : Config) (fo : FailSpec) (root : String)
    (E : List FRec) (acc : GroupAcc) (f : SrcFile) (h : CollectInv E acc) :
    CollectInv (E ++ (if eligibleF cfg fo root f then [mkRec root f] else []))
      (fileStep cfg fo root acc f) := by
  obtain ⟨h1, h2, h3, h4⟩ := h
  by_cases hel : eligibleF cfg fo root f = true
  · by_cases hseen : sourcePathOf root f ∈ acc.seen
    · simp only [fileStep, if_pos hseen, hel, if_true]
      refine ⟨h1, h2, ?_, ?_⟩
      · intro r hr
        exact findByPath_append_some E _ _ r (h3 r hr)
      · intro e he
        rcases List.mem_append.mp he with h0 | h0
        · exact h4 e h0
        · simp only [List.mem_singleton] at h0
          rw [h0]
          exact hseen
    · simp only [fileStep, if_neg hseen, hel, if_true]
      have hperm := allRecs_insertGroup acc.groups (keyFor cfg root f) (mkRec root f)
      have hmapperm : ((allRecs (insertGroup acc.groups (keyFor cfg root f)
          (mkRec root f))).map FRec.sourcePath).Perm
          (sourcePathOf root f :: (allRecs acc.groups).map FRec.sourcePath) := by
        have hx := hperm.map FRec.sourcePath
        simpa [mkRec] using hx
      have hnotin : sourcePathOf root f ∉ (allRecs acc.groups).map FRec.sourcePath :=
        fun hc => hseen ((h2 _).mpr hc)
      refine ⟨?_, ?_, ?_, ?_⟩
      · exact (hmapperm.nodup_iff).mpr (List.nodup_cons.mpr ⟨hnotin, h1⟩)
      · intro p
        constructor
        · intro hp
          rcases List.mem_cons.mp hp with h0 | h0
          · exact hmapperm.mem_iff.mpr (by rw [h0]; exact List.mem_cons_self _ _)
          · exact hmapperm.mem_iff.mpr (List.mem_cons_of_mem _ ((h2 p).mp h0))
        · intro hp
          rcases List.mem_cons.mp (hmapperm.mem_iff.mp hp) with h0 | h0
          · rw [h0]; exact List.mem_cons_self _ _
          · exact List.mem_cons_of_mem _ ((h2 p).mpr h0)
      · intro r hr
        rcases List.mem_cons.mp (hperm.mem_iff.mp hr) with h0 | h0
        · rw [h0]
          show findByPath (E ++ [mkRec root f]) (sourcePathOf root f) =
            some (mkRec root f)
          rw [findByPath_append_none E _ _
            (findByPath_eq_none E _
              (fun e he hc => hseen (by rw [← hc]; exact h4 e he)))]
          simp [findByPath, mkRec]
        · exact findByPath_append_some E _ _ r (h3 r h0)
      · intro e he
        rcases List.mem_append.mp he with h0 | h0
        · exact List.mem_cons_of_mem _ (h4 e h0)
        · simp only [List.mem_singleton] at h0
          rw [h0]
          exact List.mem_cons_self _ _
  · have hacc : fileStep cfg fo root acc f = acc := by
      unfold fileStep
      by_cases hs : sourcePathOf root f ∈ acc.seen
      · rw [if_pos hs]
      · rw [if_neg hs, if_neg hel]
    rw [hacc]
    simp only [if_neg hel, List.append_nil]
    exact ⟨h1, h2, h3, h4⟩

lemma collectFilesRec_collectInv (cfg : Config) (fo : FailSpec) (root : String) :
    ∀ (fs : List SrcFile) (E : List FRec) (acc : GroupAcc), CollectInv E acc →
      CollectInv (E ++ eligList cfg fo root fs) (collectFilesRec cfg fo root fs acc) := by
  intro fs
  induction fs with
  | nil =>
      intro E acc h
      simpa [eligList] using h
  | cons f fs ih =>
      intro E acc h
      have hstep := fileStep_collectInv cfg fo root E acc f h
      have hrec := ih (E ++ (if eligibleF cfg fo root f then [mkRec root f] else []))
        (fileStep cfg fo root acc f) hstep
      rw [List.append_assoc] at hrec
      exact hrec

lemma collectDirsRec_collectInv (cfg : Config) (fo : FailSpec) :
    ∀ (ds : List SourceDir) (E : List FRec) (acc : GroupAcc), CollectInv E acc →
      CollectInv (E ++ allEligible cfg fo ds) (collectDirsRec cfg fo ds acc) := by
  intro ds
  induction ds with
  | nil =>
      intro E acc h
      simpa [allEligible] using h
  | cons d ds ih =>
      intro E acc h
      by_cases hp : d.present = true
      · simp only [collectDirsRec, hp, if_true, allEligible]
        have hrec := ih (E ++ eligList cfg fo d.path d.files)
          (collectFilesRec cfg fo d.path d.files acc)
          (collectFilesRec_collectInv cfg fo d.path d.files E acc h)
        rw [List.append_assoc] at hrec
        exact hrec
      · simp only [Bool.not_eq_true] at hp
        simp only [collectDirsRec, hp, Bool.false_eq_true, if_false, allEligible]
        have hrec := ih E acc h
        simpa using hrec

lemma collect_collectInv (cfg : Config) (fo : FailSpec) :
    CollectInv (allEligible cfg fo cfg.sourceDirs)
      (collectDirsRec cfg fo cfg.sourceDirs ⟨[], []⟩) := by
  have h := collectDirsRec_collectInv cfg fo cfg.sourceDirs [] ⟨[], []⟩ collectInv_init
  simpa using h

/-- Claim C5: within one run, the stored records have pairwise distinct
source paths (no file is processed twice, and each is in exactly one
group), the grouping is exhaustive over discovered files matching an
active pattern, and each stored record is the FIRST eligible traversal
occurrence of its source path (first match wins under overlapping
roots). -/
theorem c5_grouping_invariant (cfg : Config) (fo : FailSpec)
    (hmt : ∀ p, fo.mtimeFail p = false) :
    ((allRecs (collectGroups cfg fo)).map FRec.sourcePath).Nodup
    ∧ (∀ d ∈ cfg.sourceDirs, d.present = true → ∀ f ∈ d.files,
        matchesAny cfg.patterns f.name = true →
        sourcePathOf d.path f ∈ (allRecs (collectGroups cfg fo)).map FRec.sourcePath)
    ∧ (∀ r ∈ allRecs (collectGroups cfg fo),
        findByPath (allEligible cfg fo cfg.sourceDirs) r.sourcePath = some r) := by
  obtain ⟨h1, h2, h3, h4⟩ := collect_collectInv cfg fo
  refine ⟨h1, ?_, h3⟩
  intro d hd hp f hf hm
  have hel : eligibleF cfg fo d.path f = true := by
    simp [eligibleF, hm, hmt]
  have hmem := mem_allEligible cfg fo d f cfg.sourceDirs hd hp hf hel
  have hseen : (mkRec d.path f).sourcePath ∈
      (collectDirsRec cfg fo cfg.sourceDirs ⟨[], []⟩).seen := h4 _ hmem
  exact (h2 _).mp hseen

/-- Witness for `c5_grouping_invariant` at the concrete `c7cfg` run. -/
theorem c5_grouping_invariant_witness :
    ((allRecs (collectGroups c7cfg noFail)).map FRec.sourcePath).Nodup ∧
    findByPath (allEligible c7cfg noFail c7cfg.sourceDirs) "/data/src/a.log" =
      some c6r :=
  ⟨(c5_grouping_invariant c7cfg noFail (fun _ => rfl)).1,
   (c5_grouping_invariant c7cfg noFail (fun _ => rfl)).2.2 c6r (by decide)⟩

/-! ### Claim C2: idempotent archive append -/

lemma getTar_isSome_of_mem (t : List (String × List String)) (p m : String)
    (h : m ∈ membersAt t p) : getTar t p = some (membersAt t p) := by
  unfold membersAt at h ⊢
  cases hg : getTar t p with
  | none => rw [hg] at h; simp at h
  | some ms => simp [hg]

lemma archiveFileStep_fst_mem (cfg : Config) (fo : FailSpec) (p : String)
    (snap : List String) (acc : List String × RunOut) (r : FRec)
    (hns : arcnameOf r ∉ snap) (hna : fo.addFail r.sourcePath = false) :
    (archiveFileStep cfg fo p snap acc r).1 = acc.1 ++ [arcnameOf r] := by
  cases hA : cfg.action <;> simp [archiveFileStep, hns, hna, hA] <;>
    split_ifs <;> simp

lemma archiveLoop_fst_mono (cfg : Config) (fo : FailSpec) (p : String)
    (snap : List String) :
    ∀ (recs : List FRec) (acc : List String × RunOut) (m : String),
      m ∈ acc.1 → m ∈ (archiveLoop cfg fo p snap recs acc).1 := by
  intro recs
  induction recs with
  | nil => exact fun acc m h => h
  | cons r rest ih =>
      intro acc m h
      simp only [archiveLoop]
      apply ih
      rcases archiveFileStep_fst_cases cfg fo p snap acc r with hc | hc
      · rw [hc]; exact h
      · rw [hc]; exact List.mem_append_left _ h

lemma archiveLoop_mem_rec (cfg : Config) (fo : FailSpec) (p : String)
    (snap : List String) (hna : ∀ q, fo.addFail q = false) :
    ∀ (recs : List FRec) (acc : List String × RunOut),
      (∀ a ∈ snap, a ∈ acc.1) →
      ∀ r ∈ recs, arcnameOf r ∈ (archiveLoop cfg fo p snap recs acc).1 := by
  intro recs
  induction recs with
  | nil => intro acc _ r hr; simp at hr
  | cons r0 rest ih =>
      intro acc hsnap r hr
      have hgrow : ∀ a ∈ acc.1, a ∈ (archiveFileStep cfg fo p snap acc r0).1 := by
        intro a ha
        rcases archiveFileStep_fst_cases cfg fo p snap acc r0 with hc | hc
        · rw [hc]; exact ha
        · rw [hc]; exact List.mem_append_left _ ha
      rcases List.mem_cons.mp hr with h0 | h0
      · rw [h0]
        by_cases hns : arcnameOf r0 ∈ snap
        · simp only [archiveLoop]
          exact archiveLoop_fst_mono cfg fo p snap rest _ _ (hgrow _ (hsnap _ hns))
        · simp only [archiveLoop]
          apply archiveLoop_fst_mono
          rw [archiveFileStep_fst_mem cfg fo p snap acc r0 hns (hna _)]
          exact List.mem_append_right _ (List.mem_singleton.mpr rfl)
      · simp only [archiveLoop]
        exact ih _ (fun a ha => hgrow _ (hsnap a ha)) r h0

lemma archiveLoop_nodup (cfg : Config) (fo : FailSpec) (p : String)
    (snap : List String) :
    ∀ (recs : List FRec) (members : List String) (out : RunOut),
      members.Nodup → (recs.map arcnameOf).Nodup →
      (∀ r ∈ recs, arcnameOf r ∈ members → arcnameOf r ∈ snap) →
      ((archiveLoop cfg fo p snap recs (members, out)).1).Nodup := by
  intro recs
  induction recs with
  | nil => exact fun members out h _ _ => h
  | cons r rest ih =>
      intro members out hmn hrn hms
      have hrn2 : (rest.map arcnameOf).Nodup := (List.nodup_cons.mp hrn).2
      have hnotin : arcnameOf r ∉ rest.map arcnameOf := (List.nodup_cons.mp hrn).1
      simp only [archiveLoop]
      by_cases hns : arcnameOf r ∈ snap
      · have hstep : (archiveFileStep cfg fo p snap (members, out) r).1 = members := by
          cases hA : cfg.action <;> simp [archiveFileStep, hns, hA]
        rcases hfix : archiveFileStep cfg fo p snap (members, out) r with ⟨ms1, out1⟩
        have hms1 : ms1 = members := by rw [← hstep, hfix]
        rw [hms1]
        exact ih members out1 hmn hrn2
          (fun r2 h2 hm2 => hms r2 (List.mem_cons_of_mem _ h2) hm2)
      · by_cases hadd : fo.addFail r.sourcePath = true
        · have hstep : (archiveFileStep cfg fo p snap (members, out) r).1 = members := by
            cases hA : cfg.action <;> simp [archiveFileStep, hns, hadd, hA]
          rcases hfix : archiveFileStep cfg fo p snap (members, out) r with ⟨ms1, out1⟩
          have hms1 : ms1 = members := by rw [← hstep, hfix]
          rw [hms1]
          exact ih members out1 hmn hrn2
            (fun r2 h2 hm2 => hms r2 (List.mem_cons_of_mem _ h2) hm2)
        · simp only [Bool.not_eq_true] at hadd
          have hstep := archiveFileStep_fst_mem cfg fo p snap (members, out) r hns hadd
          rcases hfix : archiveFileStep cfg fo p snap (members, out) r with ⟨ms1, out1⟩
          have hms1 : ms1 = members ++ [arcnameOf r] := by rw [← hstep, hfix]
          rw [hms1]
          have hanotm : arcnameOf r ∉ members := fun hc => hns (hms r (List.mem_cons_self _ _) hc)
          have hmn2 : (members ++ [arcnameOf r]).Nodup := by
            rw [List.nodup_append]
            refine ⟨hmn, List.nodup_singleton _, ?_⟩
            intro x hx hxa
            simp only [List.mem_singleton] at hxa
            rw [hxa] at hx
            exact hanotm hx
          refine ih (members ++ [arcnameOf r]) out1 hmn2 hrn2 ?_
          intro r2 h2 hm2
          rcases List.mem_append.mp hm2 with hml | hmr
          · exact hms r2 (List.mem_cons_of_mem _ h2) hml
          · simp only [List.mem_singleton] at hmr
            exact absurd (hmr ▸ List.mem_map_of_mem arcnameOf h2) hnotin

/-- The `SKIPPED` log row written for an already-archived file (line 435). -/
def skipRow (p : String) (r : FRec) : LogEntry :=
  ⟨r.sourcePath, r.fileName, p, skippedStatus⟩

lemma archiveLoop_all_skip (cfg : Config) (fo : FailSpec) (p : String)
    (snap : List String) :
    ∀ (recs : List FRec) (members : List String) (out : RunOut),
      (∀ r ∈ recs, arcnameOf r ∈ snap) →
      archiveLoop cfg fo p snap recs (members, out) =
        (members, { out with log := out.log ++ recs.map (skipRow p) }) := by
  intro recs
  induction recs with
  | nil => intro members out _; simp [archiveLoop]
  | cons r rest ih =>
      intro members out hall
      have hmem : arcnameOf r ∈ snap := hall r (List.mem_cons_self _ _)
      have hstep : archiveFileStep cfg fo p snap (members, out) r =
          (members, { out with log := out.log ++ [skipRow p r] }) := by
        simp [archiveFileStep, hmem, skipRow]
      simp only [archiveLoop, hstep]
      rw [ih members _ (fun r2 h2 => hall r2 (List.mem_cons_of_mem _ h2))]
      simp [List.append_assoc]

lemma membersAt_setTar_eq (t : List (String × List String)) (p : String)
    (ms : List String) : membersAt (setTar t p ms) p = ms := by
  unfold membersAt
  rw [getTar_setTar_eq]
  rfl

lemma membersAt_setTar_ne (t : List (String × List String)) (p q : String)
    (ms : List String) (h : q ≠ p) :
    membersAt (setTar t p ms) q = membersAt t q := by
  unfold membersAt
  rw [getTar_setTar_ne t p q ms h]

/-- The `RunOut` an archive group produces when neither `makedirs` nor
`tarfile.open` fails: the loop's log and deletions, with the group's tar
replaced by the loop's final member list. -/
def archiveGroupResult (cfg : Config) (fo : FailSpec) (k : GroupKey)
    (recs : List FRec) (out : RunOut) : RunOut :=
  let p := archivePathOf cfg k
  let ms0 := membersAt out.tars p
  let res := archiveLoop cfg fo p ms0 recs (ms0, out)
  { res.2 with tars := setTar res.2.tars p res.1 }

/-- Outcome of one archive group under an oracle with no `makedirs` and
no `tarfile.open` failures. -/
lemma processArchiveGroup_ok_noFail (cfg : Config) (fo : FailSpec) (k : GroupKey)
    (recs : List FRec) (out : RunOut)
    (hnm : fo.mkdirFail (archiveBaseDirOf cfg k) = false)
    (hnt : fo.tarOpenFail (archivePathOf cfg k) = false) :
    processArchiveGroup cfg fo k recs out =
      Except.ok (archiveGroupResult cfg fo k recs out) := by
  simp [processArchiveGroup, archiveGroupResult, hnm, hnt]

lemma archiveGroupResult_tars (cfg : Config) (fo : FailSpec) (k : GroupKey)
    (recs : List FRec) (out : RunOut) :
    (archiveGroupResult cfg fo k recs out).tars =
      setTar out.tars (archivePathOf cfg k)
        (archiveLoop cfg fo (archivePathOf cfg k)
          (membersAt out.tars (archivePathOf cfg k)) recs
          (membersAt out.tars (archivePathOf cfg k), out)).1 := by
  simp only [archiveGroupResult]
  rw [archiveLoop_tars]

lemma processGroups_members (cfg : Config) (fo : FailSpec)
    (hm : cfg.mode = .archive)
    (hna : ∀ q, fo.addFail q = false)
    (hnt : ∀ q, fo.tarOpenFail q = false)
    (hnm : ∀ q, fo.mkdirFail q = false) :
    ∀ (gs : List (GroupKey × List FRec)) (out out' : RunOut),
      processGroups cfg fo gs out = Except.ok out' →
      (∀ p m, m ∈ membersAt out.tars p → m ∈ membersAt out'.tars p)
      ∧ (∀ k recs, (k, recs) ∈ gs → ∀ r ∈ recs,
          arcnameOf r ∈ membersAt out'.tars (archivePathOf cfg k)) := by
  intro gs
  induction gs with
  | nil =>
      intro out out' h
      simp only [processGroups, Except.ok.injEq] at h
      refine ⟨fun p m hm2 => by rw [← h]; exact hm2, fun k recs hk => by simp at hk⟩
  | cons g rest ih =>
      intro out out' h
      obtain ⟨k, recs⟩ := g
      simp only [processGroups, processGroup, hm] at h
      rw [processArchiveGroup_ok_noFail cfg fo k recs out (hnm _) (hnt _)] at h
      have hrec := ih (archiveGroupResult cfg fo k recs out) out' h
      obtain ⟨hmono, hrest⟩ := hrec
      have hA : ∀ p m, m ∈ membersAt out.tars p →
          m ∈ membersAt (archiveGroupResult cfg fo k recs out).tars p := by
        intro p m h0
        rw [archiveGroupResult_tars]
        by_cases hp : p = archivePathOf cfg k
        · rw [hp, membersAt_setTar_eq]
          rw [hp] at h0
          exact archiveLoop_fst_mono cfg fo _ _ recs _ m h0
        · rw [membersAt_setTar_ne _ _ _ _ hp]
          exact h0
      have hB : ∀ r ∈ recs,
          arcnameOf r ∈ membersAt (archiveGroupResult cfg fo k recs out).tars
            (archivePathOf cfg k) := by
        intro r hr
        rw [archiveGroupResult_tars, membersAt_setTar_eq]
        exact archiveLoop_mem_rec cfg fo (archivePathOf cfg k)
          (membersAt out.tars (archivePathOf cfg k)) hna recs
          (membersAt out.tars (archivePathOf cfg k), out) (fun a ha => ha) r hr
      refine ⟨fun p m h0 => hmono p m (hA p m h0), ?_⟩
      intro k' recs' hk' r hr
      rcases List.mem_cons.mp hk' with h0 | h0
      · have hk2 : k' = k := congrArg Prod.fst h0
        have hr2 : recs' = recs := congrArg Prod.snd h0
        rw [hk2]
        rw [hr2] at hr
        exact hmono _ _ (hB r hr)
      · exact hrest k' recs' h0 r hr

lemma processGroups_nodup (cfg : Config) (fo : FailSpec)
    (hm : cfg.mode = .archive)
    (hnt : ∀ q, fo.tarOpenFail q = false)
    (hnm : ∀ q, fo.mkdirFail q = false) :
    ∀ (gs : List (GroupKey × List FRec)) (out out' : RunOut),
      processGroups cfg fo gs out = Except.ok out' →
      (∀ p, (membersAt out.tars p).Nodup) →
      (∀ k recs, (k, recs) ∈ gs → (recs.map arcnameOf).Nodup) →
      ∀ p, (membersAt out'.tars p).Nodup := by
  intro gs
  induction gs with
  | nil =>
      intro out out' h hn _ p
      simp only [processGroups, Except.ok.injEq] at h
      rw [← h]
      exact hn p
  | cons g rest ih =>
      intro out out' h hn hg
      obtain ⟨k, recs⟩ := g
      simp only [processGroups, processGroup, hm] at h
      rw [processArchiveGroup_ok_noFail cfg fo k recs out (hnm _) (hnt _)] at h
      refine ih (archiveGroupResult cfg fo k recs out) out' h ?_
        (fun k' recs' hk' => hg k' recs' (List.mem_cons_of_mem _ hk'))
      intro p
      rw [archiveGroupResult_tars]
      by_cases hp : p = archivePathOf cfg k
      · rw [hp, membersAt_setTar_eq]
        exact archiveLoop_nodup cfg fo _ _ recs _ out (hn _)
          (hg k recs (List.mem_cons_self _ _)) (fun r hr ha => ha)
      · rw [membersAt_setTar_ne _ _ _ _ hp]
        exact hn p

lemma processGroups_all_skip (cfg : Config) (fo : FailSpec)
    (hm : cfg.mode = .archive)
    (hnt : ∀ q, fo.tarOpenFail q = false)
    (hnm : ∀ q, fo.mkdirFail q = false) :
    ∀ (gs : List (GroupKey × List FRec)) (out : RunOut),
      (∀ k recs, (k, recs) ∈ gs → recs ≠ [] ∧ ∀ r ∈ recs,
        arcnameOf r ∈ membersAt out.tars (archivePathOf cfg k)) →
      ∃ out', processGroups cfg fo gs out = Except.ok out'
        ∧ out'.tars = out.tars
        ∧ out'.copied = out.copied
        ∧ out'.deleted = out.deleted
        ∧ ∃ extra, out'.log = out.log ++ extra
            ∧ ∀ e ∈ extra, e.status = skippedStatus := by
  intro gs
  induction gs with
  | nil =>
      intro out _
      exact ⟨out, rfl, rfl, rfl, rfl, [], by simp, fun e he => by simp at he⟩
  | cons g rest ih =>
      intro out hall
      obtain ⟨k, recs⟩ := g
      obtain ⟨hne, hmem⟩ := hall k recs (List.mem_cons_self _ _)
      obtain ⟨r0, hr0⟩ := List.exists_mem_of_ne_nil recs hne
      have hskip := archiveLoop_all_skip cfg fo (archivePathOf cfg k)
        (membersAt out.tars (archivePathOf cfg k)) recs
        (membersAt out.tars (archivePathOf cfg k)) out hmem
      have hsome := getTar_isSome_of_mem out.tars (archivePathOf cfg k)
        (arcnameOf r0) (hmem r0 hr0)
      have hAG : archiveGroupResult cfg fo k recs out =
          { out with log := out.log ++ recs.map (skipRow (archivePathOf cfg k)) } := by
        simp only [archiveGroupResult, hskip]
        rw [setTar_self _ _ _ hsome]
      obtain ⟨out', hrun, ht, hc, hd, extra, hlog, hst⟩ :=
        ih { out with log := out.log ++ recs.map (skipRow (archivePathOf cfg k)) }
          (fun k' recs' hk' => hall k' recs' (List.mem_cons_of_mem _ hk'))
      refine ⟨out', ?_, ht, hc, hd, ?_⟩
      · simp only [processGroups, processGroup, hm]
        rw [processArchiveGroup_ok_noFail cfg fo k recs out (hnm _) (hnt _), hAG]
        exact hrun
      · refine ⟨recs.map (skipRow (archivePathOf cfg k)) ++ extra, ?_, ?_⟩
        · rw [hlog]
          simp [List.append_assoc]
        · intro e he
          rcases List.mem_append.mp he with h0 | h0
          · obtain ⟨r2, _, hr2⟩ := List.mem_map.mp h0
            rw [← hr2]
            rfl
          · exact hst e h0

lemma mem_groups_sublist :
    ∀ (gs : List (GroupKey × List FRec)) (k : GroupKey) (recs : List FRec),
      (k, recs) ∈ gs → recs.Sublist (allRecs gs) := by
  intro gs
  induction gs with
  | nil => intro k recs h; simp at h
  | cons e rest ih =>
      intro k recs h
      obtain ⟨k0, rs0⟩ := e
      rw [allRecs_cons]
      rcases List.mem_cons.mp h with h0 | h0
      · have : recs = rs0 := congrArg Prod.snd h0
        rw [this]
        exact List.sublist_append_left rs0 (allRecs rest)
      · exact (ih k recs h0).trans (List.sublist_append_right rs0 (allRecs rest))

lemma group_arcnames_nodup (cfg : Config) (fo : FailSpec) :
    ∀ k recs, (k, recs) ∈ collectGroups cfg fo → (recs.map arcnameOf).Nodup := by
  intro k recs hmem
  have hsub := mem_groups_sublist (collectGroups cfg fo) k recs hmem
  have h1 : ((allRecs (collectGroups cfg fo)).map FRec.sourcePath).Nodup :=
    (collect_collectInv cfg fo).1
  have h2 : (recs.map FRec.sourcePath).Nodup := h1.sublist (hsub.map _)
  have h4 : recs.map FRec.sourcePath =
      (recs.map arcnameOf).map (fun a => k.sourceRoot ++ "/" ++ a) := by
    rw [List.map_map]
    exact List.map_congr_left
      (fun r hr => (collect_recKeyOk cfg fo k recs hmem r hr).1)
  rw [h4] at h2
  exact List.Nodup.of_map _ h2

lemma insertGroup_nonempty :
    ∀ (gs : List (GroupKey × List FRec)) (k : GroupKey) (r : FRec),
      (∀ k' recs', (k', recs') ∈ gs → recs' ≠ []) →
      ∀ k' recs', (k', recs') ∈ insertGroup gs k r → recs' ≠ [] := by
  intro gs
  induction gs with
  | nil =>
      intro k r _ k' recs' h
      simp only [insertGroup, List.mem_singleton, Prod.mk.injEq] at h
      rw [h.2]
      simp
  | cons e rest ih =>
      intro k r hg k' recs' h
      obtain ⟨k0, rs0⟩ := e
      have hgrest : ∀ k2 recs2, (k2, recs2) ∈ rest → recs2 ≠ [] :=
        fun k2 recs2 h2 => hg k2 recs2 (List.mem_cons_of_mem _ h2)
      by_cases he : k0 = k
      · simp only [insertGroup, if_pos he, List.mem_cons, Prod.mk.injEq] at h
        rcases h with ⟨_, hr⟩ | h
        · rw [hr]; simp
        · exact hgrest k' recs' h
      · simp only [insertGroup, if_neg he, List.mem_cons, Prod.mk.injEq] at h
        rcases h with ⟨_, hr⟩ | h
        · rw [hr]
          exact hg k0 rs0 (List.mem_cons_self _ _)
        · exact ih k r hgrest k' recs' h

lemma fileStep_nonempty (cfg : Config) (fo : FailSpec) (root : String)
    (acc : GroupAcc) (f : SrcFile)
    (hg : ∀ k recs, (k, recs) ∈ acc.groups → recs ≠ []) :
    ∀ k recs, (k, recs) ∈ (fileStep cfg fo root acc f).groups → recs ≠ [] := by
  unfold fileStep
  split_ifs with h1 h2
  · exact hg
  · exact insertGroup_nonempty acc.groups _ _ hg
  · exact hg

lemma groups_nonempty (cfg : Config) (fo : FailSpec) :
    ∀ k recs, (k, recs) ∈ collectGroups cfg fo → recs ≠ [] := by
  have hfiles : ∀ (root : String) (fs : List SrcFile) (acc : GroupAcc),
      (∀ k recs, (k, recs) ∈ acc.groups → recs ≠ []) →
      ∀ k recs, (k, recs) ∈ (collectFilesRec cfg fo root fs acc).groups →
        recs ≠ [] := by
    intro root fs
    induction fs with
    | nil => exact fun acc h => h
    | cons f fs ih =>
        intro acc h
        exact ih _ (fileStep_nonempty cfg fo root acc f h)
  have hdirs : ∀ (ds : List SourceDir) (acc : GroupAcc),
      (∀ k recs, (k, recs) ∈ acc.groups → recs ≠ []) →
      ∀ k recs, (k, recs) ∈ (collectDirsRec cfg fo ds acc).groups →
        recs ≠ [] := by
    intro ds
    induction ds with
    | nil => exact fun acc h => h
    | cons d ds ih =>
        intro acc h
        by_cases hp : d.present = true
        · simp only [collectDirsRec, hp, if_true]
          exact ih _ (hfiles d.path d.files acc h)
        · simp only [Bool.not_eq_true] at hp
          simp only [collectDirsRec, hp, Bool.false_eq_true, if_false]
          exact ih _ h
  exact hdirs cfg.sourceDirs ⟨[], []⟩ (fun k recs h => by simp at h)

/-- Claim C2: archive append is idempotent.  For an unchanged source set,
a first run from a fresh tar state followed by a second run over the
first run's tars leaves the tar state unchanged, logs every row of the
second run as `SKIPPED (Already in archive)`, and leaves every
discovered file's archive-relative name with exactly one member
occurrence in its group's tar. -/
theorem c2_archive_idempotent (cfg : Config) (out1 out2 : RunOut)
    (hm : cfg.mode = .archive) (_ha : cfg.action = .copy)
    (h1 : process_files cfg noFail [] = Except.ok out1)
    (h2 : process_files cfg noFail out1.tars = Except.ok out2) :
    out2.tars = out1.tars
    ∧ (∀ e ∈ out2.log, e.status = skippedStatus)
    ∧ (∀ k recs, (k, recs) ∈ collectGroups cfg noFail → ∀ r ∈ recs,
        (membersAt out2.tars (archivePathOf cfg k)).count (arcnameOf r) = 1) := by
  have hnf : ∀ q, (noFail.addFail q = false) ∧ (noFail.tarOpenFail q = false)
      ∧ (noFail.mkdirFail q = false) := fun q => ⟨rfl, rfl, rfl⟩
  by_cases hempty : cfg.sourceDirs.isEmpty
  · unfold process_files at h1 h2
    rw [if_pos hempty] at h1 h2
    have ho1 : out1 = ⟨[], [], [], []⟩ := by
      cases h1; rfl
    have hgs : collectGroups cfg noFail = [] := by
      have : cfg.sourceDirs = [] := List.isEmpty_iff.mp hempty
      simp [collectGroups, this, collectDirsRec]
    rw [ho1] at h2
    have ho2 : out2 = ⟨[], [], [], []⟩ := by
      cases h2; rfl
    rw [ho1, ho2]
    refine ⟨rfl, ?_, ?_⟩
    · intro e he; simp at he
    · intro k recs hk; rw [hgs] at hk; simp at hk
  · unfold process_files at h1 h2
    rw [if_neg hempty] at h1 h2
    obtain ⟨hmono1, hmem1⟩ := processGroups_members cfg noFail hm
      (fun q => (hnf q).1) (fun q => (hnf q).2.1) (fun q => (hnf q).2.2)
      (collectGroups cfg noFail) ⟨[], [], [], []⟩ out1 h1
    have hnodup1 : ∀ p, (membersAt out1.tars p).Nodup :=
      processGroups_nodup cfg noFail hm (fun q => (hnf q).2.1)
        (fun q => (hnf q).2.2) (collectGroups cfg noFail) ⟨[], [], [], []⟩ out1 h1
        (fun p => by simp [membersAt, getTar])
        (fun k recs hk => group_arcnames_nodup cfg noFail k recs hk)
    obtain ⟨out2b, hrun2, ht2, _, _, extra, hlog2, hst2⟩ :=
      processGroups_all_skip cfg noFail hm (fun q => (hnf q).2.1)
        (fun q => (hnf q).2.2) (collectGroups cfg noFail)
        ⟨out1.tars, [], [], []⟩
        (fun k recs hk => ⟨groups_nonempty cfg noFail k recs hk,
          fun r hr => hmem1 k recs hk r hr⟩)
    have hout2 : out2b = out2 := by
      rw [hrun2] at h2
      cases h2; rfl
    rw [← hout2]
    refine ⟨ht2, ?_, ?_⟩
    · intro e he
      rw [hlog2] at he
      rcases List.mem_append.mp he with h0 | h0
      · simp at h0
      · exact hst2 e h0
    · intro k recs hk r hr
      rw [ht2]
      exact List.count_eq_one_of_mem (hnodup1 _) (hmem1 k recs hk r hr)

/-- Fixture for C2: result of the first archive run of `c7cfg`. -/
def c2out1 : RunOut :=
  ⟨[("/data/tgt/src/2023/11/20231114.tar", ["a.log"])], [], [],
    [⟨"/data/src/a.log", "a.log", "/data/tgt/src/2023/11/20231114.tar",
      archivedStatus⟩]⟩

/-- Fixture for C2: result of the second archive run of `c7cfg`. -/
def c2out2 : RunOut :=
  ⟨[("/data/tgt/src/2023/11/20231114.tar", ["a.log"])], [], [],
    [⟨"/data/src/a.log", "a.log", "/data/tgt/src/2023/11/20231114.tar",
      skippedStatus⟩]⟩

/-- Witness for `c2_archive_idempotent` on the concrete `c7cfg` run. -/
theorem c2_archive_idempotent_witness :
    c2out2.tars = c2out1.tars
    ∧ (membersAt c2out2.tars (archivePathOf c7cfg c6k)).count (arcnameOf c6r) = 1 :=
  ⟨(c2_archive_idempotent c7cfg c2out1 c2out2 rfl rfl rfl rfl).1,
   (c2_archive_idempotent c7cfg c2out1 c2out2 rfl rfl rfl rfl).2.2
      c6k [c6r] (by decide) c6r (by decide)⟩

/-! ### Claim C10: target placement depends only on the root's basename -/

/-- Fixture for C10: a source root holding one file `f.log`. -/
def c10dir (p : String) : SourceDir := ⟨p, true, [⟨".", "f.log", 1700000000⟩]⟩

/-- Fixture for C10: two roots with (hypothetically) equal basenames,
archive mode. -/
def c10cfg (p1 p2 : String) : Config :=
  ⟨[c10dir p1, c10dir p2], "/tgt", ["*.log"], .archive, .copy, 30, 1700000000⟩

/-- Fixture for C10: the group key a root `p` produces for `f.log`. -/
def c10key (p : String) : GroupKey :=
  ⟨p, archiveTimeSegment (fromTimestamp 1700000000),
    archiveBaseName (fromTimestamp 1700000000)⟩

/-- Fixture for C10: the record a root `p` produces for `f.log`. -/
def c10rec (p : String) : FRec := ⟨p ++ "/" ++ "f.log", "f.log", 1700000000, "."⟩

/-- Claim C10: with two DISTINCT source roots of equal basename, the two
group keys are distinct yet share one tar path; the first root's file is
archived and the second root's file — same archive-relative name — is
logged `SKIPPED` and never added, leaving a single member. -/
theorem c10_basename_collision (p1 p2 : String)
    (hbase : baseName p1 = baseName p2)
    (hne : p1 ≠ p2)
    (hsp : p1 ++ "/" ++ "f.log" ≠ p2 ++ "/" ++ "f.log") :
    c10key p1 ≠ c10key p2
    ∧ archivePathOf (c10cfg p1 p2) (c10key p1) =
        archivePathOf (c10cfg p1 p2) (c10key p2)
    ∧ process_files (c10cfg p1 p2) noFail [] = Except.ok
        ⟨[(archivePathOf (c10cfg p1 p2) (c10key p1), ["f.log"])], [], [],
          [⟨p1 ++ "/" ++ "f.log", "f.log",
              archivePathOf (c10cfg p1 p2) (c10key p1), archivedStatus⟩,
           ⟨p2 ++ "/" ++ "f.log", "f.log",
              archivePathOf (c10cfg p1 p2) (c10key p1), skippedStatus⟩]⟩ := by
  have hspF : (p2 ++ "/" ++ "f.log" = p1 ++ "/" ++ "f.log") = False :=
    eq_false (Ne.symm hsp)
  have hkeyF : (c10key p1 = c10key p2) = False :=
    eq_false (fun h => hne (congrArg GroupKey.sourceRoot h))
  refine ⟨fun h => hne (congrArg GroupKey.sourceRoot h), ?_, ?_⟩
  · simp [archivePathOf, archiveBaseDirOf, c10cfg, c10key, hbase]
  · simp [process_files, c10cfg, c10dir, collectGroups, collectDirsRec,
      collectFilesRec, fileStep, sourcePathOf, relName, mkRec, keyFor,
      eligibleF, matchesAny, noFail, insertGroup, processGroups, processGroup,
      processArchiveGroup, archiveLoop, archiveFileStep, membersAt, getTar,
      setTar, arcnameOf, archivePathOf, archiveBaseDirOf, c10key, hspF, hkeyF,
      hbase, hne, globMatchL, globMatchAux]

/-- Witness for `c10_basename_collision` at the concrete roots
`/a/data` and `/b/data` (equal basenames, distinct paths). -/
theorem c10_basename_collision_witness :
    archivePathOf (c10cfg "/a/data" "/b/data") (c10key "/a/data") =
      archivePathOf (c10cfg "/a/data" "/b/data") (c10key "/b/data")
    ∧ process_files (c10cfg "/a/data" "/b/data") noFail [] = Except.ok
        ⟨[(archivePathOf (c10cfg "/a/data" "/b/data") (c10key "/a/data"),
            ["f.log"])], [], [],
          [⟨"/a/data" ++ "/" ++ "f.log", "f.log",
              archivePathOf (c10cfg "/a/data" "/b/data") (c10key "/a/data"),
              archivedStatus⟩,
           ⟨"/b/data" ++ "/" ++ "f.log", "f.log",
              archivePathOf (c10cfg "/a/data" "/b/data") (c10key "/a/data"),
              skippedStatus⟩]⟩ :=
  ⟨(c10_basename_collision "/a/data" "/b/data" (by decide) (by decide)
      (by decide)).2.1,
   (c10_basename_collision "/a/data" "/b/data" (by decide) (by decide)
      (by decide)).2.2⟩

end SEArch
